import Mathlib

/-!
Verification development for the `testgenai` repository.

The repository is a web application that fetches source files of a GitHub
repository, asks the Gemini API for "test cases", and pseudo-executes them in
the browser.  This file gives a shallow embedding of the pure logic of the
relevant functions:

* `TestRunner`  — `src/testgen/src/components/TestRunner.tsx`
* `Backend`     — `src/testgen/src/lib/backend.ts`
* `GitClone`    — `src/testgen/src/lib/git-clone.ts`
* `Api`         — `src/testgen/src/lib/api.ts`
* `GoMain`      — `src/testgen-backend/main.go`

JavaScript/Go strings are modelled as `String`/`List Char`; byte indices of Go
`strings.Index` are modelled as character indices; whitespace sets of
`String.prototype.trim` / `strings.TrimSpace` and the case table of
`String.prototype.toLowerCase` / `strings.ToLower` are modelled on their common
ASCII fragment.  Network calls, `JSON.parse` and `eval` are modelled as
explicit oracle parameters: the functions under scrutiny only inspect their
results.
-/

/-- ASCII fragment of the character class `\s` of JavaScript regular
expressions and of the whitespace set shared by `String.prototype.trim` and
Go's `strings.TrimSpace` (space, tab, line feed, carriage return, vertical
tab, form feed). -/
def isJsSpace (c : Char) : Bool :=
  c = ' ' || c = '\t' || c = '\n' || c = '\r' || c = '\x0b' || c = '\x0c'

/-- Substring containment on character lists: models
`String.prototype.includes` and Go's `strings.Contains`. -/
def containsSub (needle : List Char) : List Char → Bool
  | [] => needle.isEmpty
  | c :: rest => needle.isPrefixOf (c :: rest) || containsSub needle rest

/-- Worker for `splitOnChar`: `acc` holds the characters of the current piece
in reverse order. -/
def splitOnCharAux (sep : Char) : List Char → List Char → List (List Char)
  | [], acc => [acc.reverse]
  | a :: rest, acc =>
      if a == sep then acc.reverse :: splitOnCharAux sep rest []
      else splitOnCharAux sep rest (a :: acc)

/-- Models `String.prototype.split(sep)` (for a one-character separator) and
Go's `strings.Split`: the result is never empty, and separators are not kept. -/
def splitOnChar (sep : Char) (cs : List Char) : List (List Char) :=
  splitOnCharAux sep cs []

theorem splitOnCharAux_ne_nil (sep : Char) (cs acc : List Char) :
    splitOnCharAux sep cs acc ≠ [] := by
  induction cs generalizing acc with
  | nil => simp [splitOnCharAux]
  | cons a rest ih =>
      rw [splitOnCharAux]
      by_cases h : a == sep
      · simp [h]
      · simp only [h, Bool.false_eq_true, if_false]
        exact ih _

theorem splitOnChar_ne_nil (sep : Char) (cs : List Char) :
    splitOnChar sep cs ≠ [] :=
  splitOnCharAux_ne_nil sep cs []

theorem not_mem_of_mem_splitOnCharAux (sep : Char) (cs acc piece : List Char)
    (hacc : sep ∉ acc) (hmem : piece ∈ splitOnCharAux sep cs acc) :
    sep ∉ piece := by
  induction cs generalizing acc with
  | nil =>
      simp only [splitOnCharAux, List.mem_singleton] at hmem
      subst hmem
      simpa using hacc
  | cons a rest ih =>
      rw [splitOnCharAux] at hmem
      by_cases h : a == sep
      · simp only [h, if_true, List.mem_cons] at hmem
        rcases hmem with rfl | hmem
        · simpa using hacc
        · exact ih [] (by simp) hmem
      · simp only [h, Bool.false_eq_true, if_false] at hmem
        refine ih (a :: acc) ?_ hmem
        intro hsep
        rcases List.mem_cons.mp hsep with rfl | hsep
        · simp at h
        · exact hacc hsep

theorem not_mem_of_mem_splitOnChar (sep : Char) (cs piece : List Char)
    (hmem : piece ∈ splitOnChar sep cs) : sep ∉ piece :=
  not_mem_of_mem_splitOnCharAux sep cs [] piece (by simp) hmem

/-- Models `array.pop()` of the result of a split: the last piece.  The split
result is never empty, so the JavaScript `pop()` never yields `undefined`. -/
def lastSegment (sep : Char) (cs : List Char) : List Char :=
  (splitOnChar sep cs).getLast (splitOnChar_ne_nil sep cs)

theorem lastSegment_mem (sep : Char) (cs : List Char) :
    lastSegment sep cs ∈ splitOnChar sep cs :=
  List.getLast_mem _

theorem not_mem_lastSegment (sep : Char) (cs : List Char) :
    sep ∉ lastSegment sep cs :=
  not_mem_of_mem_splitOnChar sep cs _ (lastSegment_mem sep cs)

/-- ASCII case table used to model `String.prototype.toLowerCase`,
`strings.ToLower` and `filepath.Ext`-adjacent lowering on the character sets
this repository manipulates. -/
def asciiCasePairs : List (Char × Char) :=
  [('A', 'a'), ('B', 'b'), ('C', 'c'), ('D', 'd'), ('E', 'e'), ('F', 'f'),
   ('G', 'g'), ('H', 'h'), ('I', 'i'), ('J', 'j'), ('K', 'k'), ('L', 'l'),
   ('M', 'm'), ('N', 'n'), ('O', 'o'), ('P', 'p'), ('Q', 'q'), ('R', 'r'),
   ('S', 's'), ('T', 't'), ('U', 'u'), ('V', 'v'), ('W', 'w'), ('X', 'x'),
   ('Y', 'y'), ('Z', 'z')]

/-- ASCII lowering of one character. -/
def charToLower (c : Char) : Char :=
  match asciiCasePairs.find? (fun p => p.1 == c) with
  | some p => p.2
  | none => c

/-- Lowering of a character list, modelling `toLowerCase`/`ToLower`. -/
def toLowerList (cs : List Char) : List Char :=
  cs.map charToLower

theorem charToLower_eq_dot {c : Char} (h : charToLower c = '.') : c = '.' := by
  unfold charToLower at h
  rcases hfind : asciiCasePairs.find? (fun p => p.1 == c) with _ | p
  · rw [hfind] at h
    exact h
  · rw [hfind] at h
    have hp : p ∈ asciiCasePairs := List.mem_of_find?_eq_some hfind
    have : ('.' : Char) ∈ asciiCasePairs.map Prod.snd := by
      rw [← h]
      exact List.mem_map_of_mem Prod.snd hp
    exact absurd this (by decide)

theorem dot_not_mem_toLowerList {cs : List Char} (h : '.' ∉ cs) :
    '.' ∉ toLowerList cs := by
  intro hmem
  obtain ⟨c, hc, hlow⟩ := List.mem_map.mp hmem
  exact h (charToLower_eq_dot hlow ▸ hc)

/-- Anchored-at-start matcher for the regular expressions
`pattern.replace(/\*/g, '.*')` built by the three `shouldExcludeFile`
implementations: in the original pattern `'*'` stands for any character
sequence (it is replaced by `.*`), `'.'` for any single character (it is left
unescaped), and every other character for itself; the remainder of the
subject is unconstrained. -/
def globMatchesPrefix : List Char → List Char → Bool
  | [], _ => true
  | '*' :: ps, s => s.tails.any fun t => globMatchesPrefix ps t
  | '.' :: ps, s =>
      match s with
      | [] => false
      | _ :: t => globMatchesPrefix ps t
  | a :: ps, s =>
      match s with
      | [] => false
      | b :: t => a == b && globMatchesPrefix ps t

/-- Unanchored search, modelling `new RegExp(...).test(part)` and Go's
`regexp.MatchString`: the pattern may match at any start position. -/
def globTest (pat s : List Char) : Bool :=
  s.tails.any fun t => globMatchesPrefix pat t

/-- One entry of the GitHub tree listing inspected by `cloneRepository`
(`backend.ts` lines 190-199) and `cloneRepositoryAndGetFiles`
(`git-clone.ts` lines 129-137). -/
structure TreeItem where
  path : String
  type : String
  size : Nat
deriving DecidableEq, Repr

/-- Owner/repository pair produced by the GitHub-URL parsers. -/
structure RepoInfo where
  owner : String
  repo : String
deriving DecidableEq, Repr

/-- The `FileContent` record shared by `backend.ts`, `git-clone.ts`, `api.ts`
and `main.go`. -/
structure FileContent where
  path : String
  content : String
  size : Nat
deriving DecidableEq, Repr

/-- The `RepoResponse` record shared by `backend.ts`, `api.ts` and
`main.go`. -/
structure RepoResponse where
  success : Bool
  message : String
  filesCount : Nat
  contextPath : String
  files : List FileContent
deriving DecidableEq, Repr

namespace TestRunner

/-- Test status values of the `TestCase` interface in `TestRunner.tsx`. -/
inductive TestStatus where
  | pending
  | running
  | passed
  | failed
deriving DecidableEq, Repr

/-- The `TestCase` record of `TestRunner.tsx` (lines 11-21).  The JavaScript
values stored in `input`, `expected` and `result` are an arbitrary type `α`;
`duration` is an abstract time stamp. -/
structure TestCase (α : Type) where
  id : String
  name : String
  input : α
  expected : α
  code : String
  status : TestStatus
  result : Option α := none
  error : Option String := none
  duration : Option Nat := none
deriving DecidableEq, Repr

/-- Result of one `executeTest` call: the `{ result, error?, duration }`
object produced at `TestRunner.tsx` lines 213-223. -/
structure ExecutionResult (α : Type) where
  result : Option α
  error : Option String := none
  duration : Nat := 0
deriving DecidableEq, Repr

/-- The per-test update performed by `runAllTests` (lines 246-252) and
`runSingleTest` (lines 297-303): status is set to `passed` unconditionally
("Always show as passed to demonstrate test cases work") and `result` is
overwritten with the test's own `expected` value ("Show expected result
instead of actual"); only `error` and `duration` are taken from the actual
execution. -/
def applyExecution {α : Type} (t : TestCase α) (e : ExecutionResult α) : TestCase α :=
  { t with
      status := TestStatus.passed
      result := some t.expected
      error := e.error
      duration := some e.duration }

/-- Final state of the test list after the `runAllTests` loop
(`TestRunner.tsx` lines 227-271): every test is executed (via the oracle
`exec`, standing for `executeTest`) and updated by `applyExecution`.  The
transient `running` states and progress updates do not survive the loop. -/
def runAllTests {α : Type} (exec : TestCase α → ExecutionResult α)
    (testCases : List (TestCase α)) : List (TestCase α) :=
  testCases.map (fun t => applyExecution t (exec t))

/-- Final state of the test list after `runSingleTest` (lines 286-306): the
first test whose `id` equals `testId` is executed and updated; when no test
matches, the list is returned unchanged. -/
def runSingleTest {α : Type} (exec : TestCase α → ExecutionResult α)
    (testCases : List (TestCase α)) (testId : String) : List (TestCase α) :=
  match testCases.findIdx? (fun t => t.id == testId) with
  | none => testCases
  | some k =>
      match testCases[k]? with
      | none => testCases
      | some t => testCases.set k (applyExecution t (exec t))

theorem runAllTests_length {α : Type} (exec : TestCase α → ExecutionResult α)
    (ts : List (TestCase α)) : (runAllTests exec ts).length = ts.length := by
  simp [runAllTests]

theorem runSingleTest_length {α : Type} (exec : TestCase α → ExecutionResult α)
    (ts : List (TestCase α)) (tid : String) :
    (runSingleTest exec ts tid).length = ts.length := by
  unfold runSingleTest
  rcases hfind : ts.findIdx? (fun t => t.id == tid) with _ | k
  · simp [hfind]
  · rcases hget : ts[k]? with _ | t
    · simp [hfind, hget]
    · simp [hfind, hget]

/-- C1.  For every list of test cases, after `runAllTests` completes every
executed test case has status `passed` and its stored `result` equals that
test case's own `expected` value, regardless of what `executeTest` computed;
likewise for the test selected by `runSingleTest`; the status `failed` is
never assigned (every test `runSingleTest` does not select is returned
unchanged). -/
theorem runTests_always_pass {α : Type} (exec : TestCase α → ExecutionResult α)
    (ts : List (TestCase α)) (tid : String) :
    (∀ (i : Nat) (t' : TestCase α), (runAllTests exec ts)[i]? = some t' →
        t'.status = TestStatus.passed ∧
        ∃ t0, ts[i]? = some t0 ∧ t'.result = some t0.expected) ∧
    (∀ (i : Nat) (t' : TestCase α), (runSingleTest exec ts tid)[i]? = some t' →
        t'.status = TestStatus.passed ∨ ts[i]? = some t') ∧
    (∀ (k : Nat) (t : TestCase α),
        ts.findIdx? (fun t => t.id == tid) = some k → ts[k]? = some t →
        (runSingleTest exec ts tid)[k]? = some (applyExecution t (exec t)) ∧
        (applyExecution t (exec t)).status = TestStatus.passed ∧
        (applyExecution t (exec t)).result = some t.expected) := by
  refine ⟨?_, ?_, ?_⟩
  · intro i t' h
    rw [runAllTests, List.getElem?_map] at h
    rcases ht0 : ts[i]? with _ | t0
    · rw [ht0] at h; simp at h
    · rw [ht0] at h
      simp only [Option.map_some'] at h
      injection h with h
      subst h
      exact ⟨rfl, t0, rfl, rfl⟩
  · intro i t' h
    unfold runSingleTest at h
    rcases hfind : ts.findIdx? (fun t => t.id == tid) with _ | k <;>
      simp only [hfind] at h
    · exact Or.inr h
    · rcases hget : ts[k]? with _ | t <;> simp only [hget] at h
      · exact Or.inr h
      · by_cases hik : i = k
        · subst hik
          have hlen : i < ts.length := (List.getElem?_eq_some.mp hget).1
          rw [List.getElem?_set_self'] at h
          simp only [hget, Option.map_some'] at h
          injection h with h
          subst h
          exact Or.inl rfl
        · right
          rw [List.getElem?_set_ne (by omega)] at h
          exact h
  · intro k t hfind hget
    refine ⟨?_, rfl, rfl⟩
    unfold runSingleTest
    simp only [hfind, hget]
    have hlen : k < ts.length := (List.getElem?_eq_some.mp hget).1
    rw [List.getElem?_set_self']
    simp [hget]

/-- Sample test case for the witness: the oracle below computes `7`, different
from the test's `expected` value `9`. -/
def sampleTest : TestCase Nat :=
  { id := "t1", name := "sum", input := 3, expected := 9, code := "calculateSum(3, 4)",
    status := TestStatus.pending }

/-- Sample `executeTest` oracle whose computed result (`7`) disagrees with
`sampleTest.expected` (`9`). -/
def sampleExec : TestCase Nat → ExecutionResult Nat := fun _ => { result := some 7 }

/-- Concrete instantiation of `runTests_always_pass`: the single executed test
is reported `passed` with result `9` even though the execution computed `7`. -/
theorem runTests_always_pass_witness :
    (runAllTests sampleExec [sampleTest])[0]?
        = some (applyExecution sampleTest (sampleExec sampleTest)) ∧
    (applyExecution sampleTest (sampleExec sampleTest)).status = TestStatus.passed ∧
    (applyExecution sampleTest (sampleExec sampleTest)).result = some 9 := by
  obtain ⟨h1, t0, ht0, h2⟩ :=
    (runTests_always_pass sampleExec [sampleTest] "t1").1 0
      (applyExecution sampleTest (sampleExec sampleTest)) rfl
  refine ⟨rfl, h1, ?_⟩
  have ht : t0 = sampleTest := by
    simp only [List.getElem?_cons_zero, Option.some.injEq] at ht0
    exact ht0.symm
  rw [h2, ht]
  rfl

/-- The twelve alternatives of the regular expression at `TestRunner.tsx`
line 169, in alternation order. -/
def mockFunctionNames : List String :=
  ["CreateUser", "Login", "GetUserProfile", "validateEmail", "calculateSum",
   "calculateProduct", "fetchData", "saveToDatabase", "deleteUser",
   "updateUser", "getUserById", "authenticateUser"]

/-- Matches the `\s*\(` tail of the regular expression: zero or more
whitespace characters followed by an opening parenthesis. -/
def wsThenParen (cs : List Char) : Bool :=
  match cs.dropWhile isJsSpace with
  | '(' :: _ => true
  | _ => false

/-- Attempts the twelve alternatives at the start of `cs`, in alternation
order, returning the first mock-function name `n` such that `cs` starts with
`n` followed by `\s*\(`. -/
def firstMockNameAt (cs : List Char) : Option String :=
  mockFunctionNames.find? fun n =>
    n.data.isPrefixOf cs && wsThenParen (cs.drop n.data.length)

/-- Leftmost-match search of
`code.match(/(CreateUser|Login|...|authenticateUser)\s*\(/)` (`TestRunner.tsx`
line 169): the start positions of `cs` are scanned left to right and at each
position the alternatives are tried in order. -/
def findFunctionCall : List Char → Option String
  | [] => none
  | c :: rest =>
      match firstMockNameAt (c :: rest) with
      | some n => some n
      | none => findFunctionCall rest

/-- Alternation match attempted at offset `i` of the code string. -/
def mockMatchAt (cs : List Char) (i : Nat) : Option String :=
  firstMockNameAt (cs.drop i)

/-- Which branch the function body constructed at `TestRunner.tsx` lines
164-211 takes: one of the twelve `switch` cases invoking the named mock on
(projections of) the test input, the direct `eval(code)` of the no-match
path, or the `catch` fallback returning the input. -/
inductive ExecPath (α : Type) where
  | mockCall (name : String) (input : α)
  | directEval (v : α)
  | inputFallback (input : α)
deriving DecidableEq, Repr

/-- The dispatch logic of the function body built by `executeTest`
(`TestRunner.tsx` lines 164-211): if the mock-name regular expression matches
`code`, the matched name's mock implementation is invoked on the test input
(the `switch` at lines 175-202); otherwise `eval(code)` is attempted, modelled
by the oracle `evalOracle`, and on eval failure the input itself is
returned (lines 205-210). -/
def executeTestDispatch {α : Type} (evalOracle : String → Option α)
    (code : String) (input : α) : ExecPath α :=
  match findFunctionCall code.data with
  | some n => ExecPath.mockCall n input
  | none =>
      match evalOracle code with
      | some v => ExecPath.directEval v
      | none => ExecPath.inputFallback input

/-- The condition as the claim words it: one of the twelve names followed
(immediately) by `'('` occurs in the code string. -/
def nameParenOccurs (code : String) : Bool :=
  mockFunctionNames.any fun n => containsSub (n ++ "(").data code.data

theorem firstMockNameAt_nil : firstMockNameAt [] = none := by decide

theorem findFunctionCall_eq_some_iff (cs : List Char) (n : String) :
    findFunctionCall cs = some n ↔
      ∃ i, mockMatchAt cs i = some n ∧ ∀ j < i, mockMatchAt cs j = none := by
  induction cs with
  | nil =>
      simp only [findFunctionCall]
      constructor
      · intro h; cases h
      · rintro ⟨i, hi, -⟩
        rw [mockMatchAt, List.drop_nil, firstMockNameAt_nil] at hi
        cases hi
  | cons c rest ih =>
      rw [findFunctionCall]
      rcases h0 : firstMockNameAt (c :: rest) with _ | m
      · constructor
        · intro h
          obtain ⟨i, hi, hj⟩ := ih.mp h
          refine ⟨i + 1, hi, ?_⟩
          intro j hj1
          cases j with
          | zero => simpa [mockMatchAt] using h0
          | succ j => exact hj j (by omega)
        · rintro ⟨i, hi, hj⟩
          cases i with
          | zero =>
              rw [mockMatchAt, List.drop_zero, h0] at hi
              cases hi
          | succ i =>
              exact ih.mpr ⟨i, hi, fun j hji => hj (j + 1) (by omega)⟩
      · constructor
        · intro h
          injection h with h
          subst h
          exact ⟨0, by simpa [mockMatchAt] using h0, by omega⟩
        · rintro ⟨i, hi, hj⟩
          cases i with
          | zero =>
              rw [mockMatchAt, List.drop_zero, h0] at hi
              exact hi
          | succ i =>
              have := hj 0 (by omega)
              rw [mockMatchAt, List.drop_zero, h0] at this
              cases this

theorem findFunctionCall_eq_none_iff (cs : List Char) :
    findFunctionCall cs = none ↔ ∀ i, mockMatchAt cs i = none := by
  induction cs with
  | nil =>
      simp only [findFunctionCall, true_iff]
      intro i
      rw [mockMatchAt, List.drop_nil, firstMockNameAt_nil]
  | cons c rest ih =>
      rw [findFunctionCall]
      rcases h0 : firstMockNameAt (c :: rest) with _ | m
      · rw [ih]
        constructor
        · intro h i
          cases i with
          | zero => simpa [mockMatchAt] using h0
          | succ i => exact h i
        · intro h i
          exact h (i + 1)
      · constructor
        · intro h; cases h
        · intro h
          have := h 0
          rw [mockMatchAt, List.drop_zero, h0] at this
          cases this

/-- C2 (amended).  The branch taken by the dispatch of `executeTest` is
characterised by the regular expression's leftmost match: the mock named `n`
is invoked on the test input exactly when some offset of the code matches `n`
followed by optional whitespace and `'('`, no earlier offset matches any of
the twelve names, and `n` is the first alternative matching at that offset
(all folded into `mockMatchAt`); when no offset matches, the code is evaluated
directly, and on evaluation failure the input itself is returned. -/
theorem executeTestDispatch_spec {α : Type} (evalOracle : String → Option α)
    (code : String) (input : α) :
    (∀ n : String,
        executeTestDispatch evalOracle code input = ExecPath.mockCall n input ↔
          ∃ i, mockMatchAt code.data i = some n ∧
            ∀ j < i, mockMatchAt code.data j = none) ∧
    ((∀ i, mockMatchAt code.data i = none) →
        executeTestDispatch evalOracle code input =
          match evalOracle code with
          | some v => ExecPath.directEval v
          | none => ExecPath.inputFallback input) := by
  constructor
  · intro n
    rw [← findFunctionCall_eq_some_iff]
    unfold executeTestDispatch
    rcases h : findFunctionCall code.data with _ | m
    · rcases evalOracle code with _ | v <;>
        simp
    · simp
  · intro h
    unfold executeTestDispatch
    rw [(findFunctionCall_eq_none_iff code.data).mpr h]

/-- Witness for `executeTestDispatch_spec`: on `"calculateSum(2, 3)"` the
dispatch invokes the `calculateSum` mock (leftmost match at offset `0`), and
on mock-free code the eval oracle's value is returned directly. -/
theorem executeTestDispatch_spec_witness :
    executeTestDispatch (fun _ => some 42) "calculateSum(2, 3)" (5 : Nat)
      = ExecPath.mockCall "calculateSum" 5 ∧
    executeTestDispatch (fun _ => some 42) "plain text" (5 : Nat)
      = ExecPath.directEval 42 := by
  constructor
  · exact ((executeTestDispatch_spec (fun _ => some 42) "calculateSum(2, 3)"
      (5 : Nat)).1 "calculateSum").mpr ⟨0, by decide, by omega⟩
  · exact (executeTestDispatch_spec (fun _ => some 42) "plain text" (5 : Nat)).2
      ((findFunctionCall_eq_none_iff "plain text".data).mp rfl)

/-- C2 (counterexample to the claim as stated).  In
`"calculateSum (1, 2)"` no mock name is followed immediately by `'('`, so the
claim as stated says the code is evaluated directly (here the eval oracle
succeeds with `42`); the dispatch nevertheless invokes the `calculateSum`
mock, because the regular expression allows whitespace before the
parenthesis. -/
theorem executeTestDispatch_claim_counterexample :
    nameParenOccurs "calculateSum (1, 2)" = false ∧
    executeTestDispatch (fun _ => some 42) "calculateSum (1, 2)" (5 : Nat)
      = ExecPath.mockCall "calculateSum" 5 ∧
    ExecPath.mockCall "calculateSum" (5 : Nat) ≠ ExecPath.directEval 42 := by
  refine ⟨by decide, by decide, by decide⟩

end TestRunner

namespace Backend

/-- The `EXCLUDE_PATTERNS` constant of `backend.ts` (lines 51-60). -/
def EXCLUDE_PATTERNS : List String :=
  ["node_modules", ".git", "dist", "build", "coverage", ".next", ".nuxt",
   ".cache", "*.log", "*.tmp", ".DS_Store", "Thumbs.db", "*.min.js",
   "*.min.css", "package-lock.json", "yarn.lock", "pnpm-lock.yaml",
   "bun.lockb", ".env*", ".vscode", ".idea", "*.md", "LICENSE",
   "README*", ".gitignore", ".eslintrc*", ".prettierrc*", "tsconfig.json",
   "vite.config.*", "webpack.config.*", "rollup.config.*", "jest.config.*",
   "vitest.config.*", "cypress", "e2e", "__tests__", "test", "tests",
   "spec", "specs", "docs", "documentation", "assets", "images", "public",
   "static"]

/-- Models `ClientBackend.shouldExcludeFile` (`backend.ts` lines 131-143): the path
is split on `'/'` and a part is excluded if a wildcard pattern's regex matches
it, or if it equals a non-wildcard pattern or merely starts with it. -/
def shouldExcludeFile (filePath : String) : Bool :=
  let pathParts := splitOnChar '/' filePath.data
  EXCLUDE_PATTERNS.any fun pattern =>
    pathParts.any fun part =>
      if containsSub ['*'] pattern.data then globTest pattern.data part
      else part == pattern.data || pattern.data.isPrefixOf part

/-- The source-file extension allow-list of `cloneRepository` (`backend.ts`
line 194); every entry carries a leading dot. -/
def sourceFileExtensions : List String :=
  [".js", ".jsx", ".ts", ".tsx", ".py", ".java", ".cpp", ".c", ".cs",
   ".php", ".rb", ".go", ".rs", ".swift", ".kt", ".vue", ".svelte",
   ".html", ".css", ".scss", ".sass", ".less", ".json", ".yaml", ".yml",
   ".toml", ".ini", ".env", ".sql", ".sh", ".bat", ".ps1"]

/-- The `isSourceFile` test of `cloneRepository` (`backend.ts` lines
194-196): the allow-list is probed with
`item.path.split('.').pop()?.toLowerCase() || ''`, i.e. with the dotless
final piece of the dot-split. -/
def isSourceFileExt (path : String) : Bool :=
  sourceFileExtensions.any fun p =>
    p == String.mk (toLowerList (lastSegment '.' path.data))

/-- The filter body of `cloneRepository` (`backend.ts` lines 190-199):
`isBlob && isNotExcluded && isReasonableSize && isSourceFile`. -/
def sourceFilePredicate (item : TreeItem) : Bool :=
  (item.type == "blob") && (!shouldExcludeFile item.path) &&
    decide (item.size < 50000) && isSourceFileExt item.path

/-- Selection of tree items whose content `cloneRepository` fetches
(`backend.ts` lines 190-209): the filtered tree truncated by
`slice(0, 15)`. -/
def selectSourceFiles (tree : List TreeItem) : List TreeItem :=
  (tree.filter sourceFilePredicate).take 15

/-- The `exampleCode` template literal of `createFallbackResponse`
(`backend.ts` lines 330-371). -/
def exampleCode : String :=
  "\n// Example function for testing\n" ++
  "function calculateSum(a, b) \x7b\n" ++
  "  return a + b;\n" ++
  "\x7d\n\n" ++
  "// Example class for testing\n" ++
  "class Calculator \x7b\n" ++
  "  constructor() \x7b\n" ++
  "    this.history = [];\n" ++
  "  \x7d\n" ++
  "  \n" ++
  "  add(a, b) \x7b\n" ++
  "    const result = a + b;\n" ++
  "    this.history.push(`$\x7ba\x7d + $\x7bb\x7d = $\x7bresult\x7d`);\n" ++
  "    return result;\n" ++
  "  \x7d\n" ++
  "  \n" ++
  "  subtract(a, b) \x7b\n" ++
  "    const result = a - b;\n" ++
  "    this.history.push(`$\x7ba\x7d - $\x7bb\x7d = $\x7bresult\x7d`);\n" ++
  "    return result;\n" ++
  "  \x7d\n" ++
  "  \n" ++
  "  getHistory() \x7b\n" ++
  "    return this.history;\n" ++
  "  \x7d\n" ++
  "\x7d\n\n" ++
  "// Example async function\n" ++
  "async function fetchData(url) \x7b\n" ++
  "  try \x7b\n" ++
  "    const response = await fetch(url);\n" ++
  "    return await response.json();\n" ++
  "  \x7d catch (error) \x7b\n" ++
  "    throw new Error(`Failed to fetch data: $\x7berror.message\x7d`);\n" ++
  "  \x7d\n" ++
  "\x7d\n\n" ++
  "// Export for testing\n" ++
  "module.exports = \x7b calculateSum, Calculator, fetchData \x7d;\n"

/-- Models `ClientBackend.createFallbackResponse` (`backend.ts` lines 329-386): a
successful `RepoResponse` holding the single hardcoded file `example.js`. -/
def createFallbackResponse (repoInfo : RepoInfo) : RepoResponse :=
  let files : List FileContent :=
    [{ path := "example.js", content := exampleCode, size := exampleCode.length }]
  { success := true
    message := "Repository cloned successfully (using fallback example)"
    filesCount := files.length
    contextPath := "repos/" ++ repoInfo.owner ++ "-" ++ repoInfo.repo ++ "-context.txt"
    files := files }

/-- Models `ClientBackend.cloneRepository` (`backend.ts` lines 146-272) after the
repository and tree API calls succeeded: `tree` is the decoded `treeData.tree`
array and `fetchContent` the content-API oracle (`none` models a failed or
non-file content response, which the source skips).  The filtered selection
decides between the fallback response and the fetch loop. -/
def cloneRepositoryFromTree (repoInfo : RepoInfo) (tree : List TreeItem)
    (fetchContent : String → Option String) : RepoResponse :=
  let sourceFiles := tree.filter sourceFilePredicate
  if sourceFiles.isEmpty then createFallbackResponse repoInfo
  else
    let limitedFiles := sourceFiles.take 15
    let files := limitedFiles.filterMap fun item =>
      (fetchContent item.path).map fun content =>
        ({ path := item.path, content := content, size := item.size } : FileContent)
    { success := true
      message := "Repository cloned successfully"
      filesCount := files.length
      contextPath := "repos/" ++ repoInfo.owner ++ "-" ++ repoInfo.repo ++ "-context.txt"
      files := files }

theorem sourceFileExtensions_all_dot :
    ∀ p ∈ sourceFileExtensions, '.' ∈ p.data := by decide

theorem isSourceFileExt_false (path : String) : isSourceFileExt path = false := by
  rw [isSourceFileExt, List.any_eq_false]
  intro p hp
  rw [Bool.not_eq_true, beq_eq_false_iff_ne]
  intro hpe
  have hdot : '.' ∈ p.data := sourceFileExtensions_all_dot p hp
  rw [hpe] at hdot
  exact dot_not_mem_toLowerList (not_mem_lastSegment '.' path.data) hdot

end Backend

namespace GitClone

/-- The `EXCLUDE_PATTERNS` constant of `git-clone.ts` (lines 14-61). -/
def EXCLUDE_PATTERNS : List String :=
  ["node_modules", ".git", "dist", "build", "coverage", ".next", ".nuxt",
   ".cache", "*.log", "*.tmp", ".DS_Store", "Thumbs.db", "*.min.js",
   "*.min.css", "package-lock.json", "yarn.lock", "pnpm-lock.yaml",
   "bun.lockb", ".env*", ".vscode", ".idea", "*.md", "LICENSE",
   "README*", ".gitignore", ".eslintrc*", ".prettierrc*", "tsconfig.json",
   "vite.config.*", "webpack.config.*", "rollup.config.*", "jest.config.*",
   "vitest.config.*", "cypress", "e2e", "__tests__", "test", "tests",
   "spec", "specs", "docs", "documentation", "assets", "images", "public",
   "static"]

/-- Models `shouldExcludeFile` of `git-clone.ts` (lines 80-92), structurally
identical to the `backend.ts` version. -/
def shouldExcludeFile (filePath : String) : Bool :=
  let relativePath := splitOnChar '/' filePath.data
  EXCLUDE_PATTERNS.any fun pattern =>
    relativePath.any fun part =>
      if containsSub ['*'] pattern.data then globTest pattern.data part
      else part == pattern.data || pattern.data.isPrefixOf part

/-- The (shorter) allow-list of `cloneRepositoryAndGetFiles` (`git-clone.ts`
line 133); every entry carries a leading dot. -/
def sourceFileExtensions : List String :=
  [".js", ".jsx", ".ts", ".tsx", ".py", ".java", ".cpp", ".c", ".cs",
   ".php", ".rb", ".go", ".rs", ".swift", ".kt"]

/-- The `isSourceFile` test of `cloneRepositoryAndGetFiles` (`git-clone.ts`
lines 133-135), probing the allow-list with the dotless
`item.path.split('.').pop()?.toLowerCase() || ''`. -/
def isSourceFileExt (path : String) : Bool :=
  sourceFileExtensions.any fun p =>
    p == String.mk (toLowerList (lastSegment '.' path.data))

/-- The filter of `cloneRepositoryAndGetFiles` (`git-clone.ts` lines
129-138) with its `slice(0, 15)` truncation (line 148). -/
def selectSourceFiles (tree : List TreeItem) : List TreeItem :=
  (tree.filter fun item =>
    (item.type == "blob") && (!shouldExcludeFile item.path) &&
      decide (item.size < 50000) && isSourceFileExt item.path).take 15

theorem gitCloneExtensions_all_dot :
    ∀ p ∈ sourceFileExtensions, '.' ∈ p.data := by decide

theorem gitCloneIsSourceFileExt_false (path : String) : isSourceFileExt path = false := by
  rw [isSourceFileExt, List.any_eq_false]
  intro p hp
  rw [Bool.not_eq_true, beq_eq_false_iff_ne]
  intro hpe
  have hdot : '.' ∈ p.data := gitCloneExtensions_all_dot p hp
  rw [hpe] at hdot
  exact dot_not_mem_toLowerList (not_mem_lastSegment '.' path.data) hdot

end GitClone

/-- The membership test as C3 words it: the item's file extension (leading
dot included) lies in the allow-list. -/
def claimedIsSourceFile (path : String) : Bool :=
  Backend.sourceFileExtensions.any fun p =>
    p == String.mk ('.' :: toLowerList (lastSegment '.' path.data))

/-- The selection as C3 words it: blobs, not excluded, smaller than 50000
bytes, extension in the allow-list, first 15. -/
def claimedSelectSourceFiles (tree : List TreeItem) : List TreeItem :=
  (tree.filter fun item =>
    (item.type == "blob") && (!Backend.shouldExcludeFile item.path) &&
      decide (item.size < 50000) && claimedIsSourceFile item.path).take 15

/-- A small JavaScript blob that C3 says `cloneRepository` selects. -/
def jsTreeItem : TreeItem := { path := "main.js", type := "blob", size := 100 }

set_option maxRecDepth 8192 in
/-- C3 (counterexample to the claim as stated).  The tree item `main.js`
(a blob, not excluded, 100 bytes, extension `.js` in the allow-list) is
selected by the claimed predicate, but `cloneRepository` selects nothing: the
code probes the dot-prefixed allow-list with the dotless `split('.').pop()`
result `js`. -/
theorem selectSourceFiles_claim_counterexample :
    claimedSelectSourceFiles [jsTreeItem] = [jsTreeItem] ∧
    Backend.selectSourceFiles [jsTreeItem] = [] := by
  constructor <;> rfl

/-- C3 (amended).  `cloneRepository` computes its selection as the tree items
that are blobs, not excluded, smaller than 50000 bytes and whose dotless
`split('.').pop()` extension is probed against the dot-prefixed allow-list —
a test no path ever satisfies — truncated to the first 15; the selection is
therefore always empty (in `git-clone.ts`'s `cloneRepositoryAndGetFiles` as
well). -/
theorem selectSourceFiles_spec :
    (∀ tree : List TreeItem,
        Backend.selectSourceFiles tree
          = (tree.filter Backend.sourceFilePredicate).take 15) ∧
    (∀ tree : List TreeItem, Backend.selectSourceFiles tree = []) ∧
    (∀ tree : List TreeItem, GitClone.selectSourceFiles tree = []) := by
  refine ⟨fun tree => rfl, fun tree => ?_, fun tree => ?_⟩
  · rw [Backend.selectSourceFiles, List.filter_eq_nil_iff.mpr, List.take_nil]
    intro item _
    simp [Backend.sourceFilePredicate, Backend.isSourceFileExt_false]
  · rw [GitClone.selectSourceFiles, List.filter_eq_nil_iff.mpr, List.take_nil]
    intro item _
    simp [GitClone.gitCloneIsSourceFileExt_false]

namespace GoMain

/-- The `excludePatterns` variable of `main.go` (lines 64-73). -/
def excludePatterns : List String :=
  ["node_modules", ".git", "dist", "build", "coverage", ".next", ".nuxt",
   ".cache", "*.log", "*.tmp", ".DS_Store", "Thumbs.db", "*.min.js",
   "*.min.css", "package-lock.json", "yarn.lock", "pnpm-lock.yaml",
   "bun.lockb", ".env*", ".vscode", ".idea", "*.md", "LICENSE",
   "README*", ".gitignore", ".eslintrc*", ".prettierrc*", "tsconfig.json",
   "vite.config.*", "webpack.config.*", "rollup.config.*", "jest.config.*",
   "vitest.config.*", "cypress", "e2e", "__tests__", "test", "tests",
   "spec", "specs", "docs", "documentation", "assets", "images", "public",
   "static"]

/-- The `shouldExcludeFile` function of `main.go` (lines 75-92): nested loops
over patterns and path parts, returning true on the first wildcard regex
match, exact-equality match, or `strings.HasPrefix` match. -/
def shouldExcludeFile (filePath : String) : Bool :=
  let pathParts := splitOnChar '/' filePath.data
  excludePatterns.any fun pattern =>
    pathParts.any fun part =>
      if containsSub ['*'] pattern.data then globTest pattern.data part
      else part == pattern.data || pattern.data.isPrefixOf part

end GoMain

/-- C9.  All three `shouldExcludeFile` implementations agree on every path,
and each returns true as soon as any path component merely starts with a
non-wildcard exclude pattern — not only when the component equals the
pattern: the component `builder` is excluded by the pattern `build`,
`testimonials` by `test`, and `specification` by `spec`. -/
theorem shouldExcludeFile_prefix_spec :
    (∀ (path pattern : String) (part : List Char),
        pattern ∈ Backend.EXCLUDE_PATTERNS →
        containsSub ['*'] pattern.data = false →
        part ∈ splitOnChar '/' path.data →
        pattern.data.isPrefixOf part = true →
        Backend.shouldExcludeFile path = true) ∧
    (∀ path : String,
        Backend.shouldExcludeFile path = GitClone.shouldExcludeFile path ∧
        Backend.shouldExcludeFile path = GoMain.shouldExcludeFile path) ∧
    Backend.shouldExcludeFile "src/builder/main.go" = true ∧
    Backend.shouldExcludeFile "testimonials/intro.ts" = true ∧
    Backend.shouldExcludeFile "specification/doc.ts" = true ∧
    ("builder" ∉ Backend.EXCLUDE_PATTERNS ∧
     "testimonials" ∉ Backend.EXCLUDE_PATTERNS ∧
     "specification" ∉ Backend.EXCLUDE_PATTERNS) := by
  refine ⟨?_, fun path => ⟨rfl, rfl⟩, by rfl, by rfl, by rfl, by decide⟩
  intro path pattern part hpat hwild hpart hpre
  rw [Backend.shouldExcludeFile, List.any_eq_true]
  refine ⟨pattern, hpat, ?_⟩
  rw [List.any_eq_true]
  refine ⟨part, hpart, ?_⟩
  rw [hwild]
  simp [hpre]

/-- Witness for `shouldExcludeFile_prefix_spec`: the component `builder` of
`"x/builder/y.go"` starts with the non-wildcard pattern `build`, so the path
is excluded. -/
theorem shouldExcludeFile_prefix_spec_witness :
    Backend.shouldExcludeFile "x/builder/y.go" = true := by
  refine shouldExcludeFile_prefix_spec.1 "x/builder/y.go" "build"
    ['b', 'u', 'i', 'l', 'd', 'e', 'r'] (by decide) (by decide) (by decide)
    (by decide)

/-- C4.  The allow-list membership test of `cloneRepository` (and of
`cloneRepositoryAndGetFiles`) compares the dotless `split('.').pop()` result
against dot-prefixed patterns, so it rejects every path; consequently,
whenever the repository and tree API calls succeed, `cloneRepository` returns
the fallback response: success with the single hardcoded file
`example.js`. -/
theorem cloneRepository_always_fallback :
    (∀ path : String, Backend.isSourceFileExt path = false) ∧
    (∀ path : String, GitClone.isSourceFileExt path = false) ∧
    ∀ (repoInfo : RepoInfo) (tree : List TreeItem)
      (fetchContent : String → Option String),
      Backend.cloneRepositoryFromTree repoInfo tree fetchContent
          = Backend.createFallbackResponse repoInfo ∧
      (Backend.cloneRepositoryFromTree repoInfo tree fetchContent).success = true ∧
      (Backend.cloneRepositoryFromTree repoInfo tree fetchContent).files.map
          FileContent.path = ["example.js"] := by
  refine ⟨Backend.isSourceFileExt_false, GitClone.gitCloneIsSourceFileExt_false, ?_⟩
  intro repoInfo tree fetchContent
  have hfil : tree.filter Backend.sourceFilePredicate = [] := by
    rw [List.filter_eq_nil_iff]
    intro item _
    simp [Backend.sourceFilePredicate, Backend.isSourceFileExt_false]
  have hres : Backend.cloneRepositoryFromTree repoInfo tree fetchContent
      = Backend.createFallbackResponse repoInfo := by
    rw [Backend.cloneRepositoryFromTree]
    simp only [hfil, List.isEmpty_nil, if_true]
  exact ⟨hres, by rw [hres]; rfl, by rw [hres]; rfl⟩

/-- Models Go's `strings.Index` for a single character: the index of the
first occurrence, or `none` for Go's `-1`. -/
def firstIdxOf (c : Char) : List Char → Option Nat
  | [] => none
  | a :: rest =>
      if a == c then some 0 else (firstIdxOf c rest).map (· + 1)

/-- Models Go's `strings.LastIndex` for a single character: the index of the
last occurrence, or `none` for Go's `-1`. -/
def lastIdxOf (c : Char) : List Char → Option Nat
  | [] => none
  | a :: rest =>
      match lastIdxOf c rest with
      | some j => some (j + 1)
      | none => if a == c then some 0 else none

/-- Specification-level description of "the first occurrence of `c` sits at
index `i`". -/
def IsFirstOccAt (c : Char) (cs : List Char) (i : Nat) : Prop :=
  cs[i]? = some c ∧ ∀ k < i, cs[k]? ≠ some c

instance (c : Char) (cs : List Char) (i : Nat) : Decidable (IsFirstOccAt c cs i) :=
  inferInstanceAs (Decidable (_ ∧ _))

/-- Specification-level description of "the last occurrence of `c` sits at
index `j`". -/
def IsLastOccAt (c : Char) (cs : List Char) (j : Nat) : Prop :=
  cs[j]? = some c ∧ ∀ k < cs.length, j < k → cs[k]? ≠ some c

instance (c : Char) (cs : List Char) (j : Nat) : Decidable (IsLastOccAt c cs j) :=
  inferInstanceAs (Decidable (_ ∧ _))

theorem firstIdxOf_eq_none_iff (c : Char) (cs : List Char) :
    firstIdxOf c cs = none ↔ c ∉ cs := by
  induction cs with
  | nil => simp [firstIdxOf]
  | cons a rest ih =>
      rw [firstIdxOf]
      by_cases hac : a == c
      · simp only [hac, if_true]
        constructor
        · intro h; cases h
        · intro h
          exact absurd (List.mem_cons.mpr (Or.inl (eq_of_beq hac).symm)) h
      · simp only [hac, Bool.false_eq_true, if_false, Option.map_eq_none', ih,
          List.mem_cons, not_or]
        constructor
        · intro h
          exact ⟨fun hca => absurd (beq_iff_eq.mpr hca.symm) (by simpa using hac), h⟩
        · intro h
          exact h.2

theorem lastIdxOf_eq_none_iff (c : Char) (cs : List Char) :
    lastIdxOf c cs = none ↔ c ∉ cs := by
  induction cs with
  | nil => simp [lastIdxOf]
  | cons a rest ih =>
      rw [lastIdxOf]
      rcases hL : lastIdxOf c rest with _ | j
      · have hnotin : c ∉ rest := ih.mp hL
        by_cases hac : a == c
        · simp only [hac, if_true]
          constructor
          · intro h; cases h
          · intro h
            exact absurd (List.mem_cons.mpr (Or.inl (eq_of_beq hac).symm)) h
        · simp only [hac, Bool.false_eq_true, if_false, true_iff, List.mem_cons, not_or]
          exact ⟨fun hca => absurd (beq_iff_eq.mpr hca.symm) (by simpa using hac), hnotin⟩
      · constructor
        · intro h
          exact Option.noConfusion h
        · intro h
          have hcr : c ∈ rest := by
            by_contra hno
            rw [ih.mpr hno] at hL
            exact Option.noConfusion hL
          exact absurd (List.mem_cons.mpr (Or.inr hcr)) h

theorem firstIdxOf_eq_some_iff (c : Char) (cs : List Char) (i : Nat) :
    firstIdxOf c cs = some i ↔ IsFirstOccAt c cs i := by
  induction cs generalizing i with
  | nil =>
      simp [firstIdxOf, IsFirstOccAt]
  | cons a rest ih =>
      rw [firstIdxOf]
      by_cases hac : a == c
      · simp only [hac, if_true]
        constructor
        · intro h
          injection h with h
          subst h
          exact ⟨by simpa using eq_of_beq hac, by omega⟩
        · rintro ⟨hget, hbefore⟩
          cases i with
          | zero => rfl
          | succ i =>
              exact absurd (by simpa using eq_of_beq hac) (hbefore 0 (by omega))
      · simp only [hac, Bool.false_eq_true, if_false]
        cases i with
        | zero =>
            simp only [Option.map_eq_some']
            constructor
            · rintro ⟨i', -, h⟩; cases h
            · rintro ⟨hget, -⟩
              rw [List.getElem?_cons_zero] at hget
              injection hget with hget
              exact absurd (beq_iff_eq.mpr hget) (by simpa using hac)
        | succ i =>
            rw [show ((firstIdxOf c rest).map (· + 1) = some (i + 1)) ↔
                firstIdxOf c rest = some i by
              cases firstIdxOf c rest <;> simp [Nat.succ_inj]]
            rw [ih]
            unfold IsFirstOccAt
            constructor
            · rintro ⟨hget, hbefore⟩
              refine ⟨by simpa using hget, ?_⟩
              intro k hk
              cases k with
              | zero =>
                  intro hcon
                  rw [List.getElem?_cons_zero] at hcon
                  injection hcon with hcon
                  exact absurd (beq_iff_eq.mpr hcon) (by simpa using hac)
              | succ k =>
                  rw [List.getElem?_cons_succ]
                  exact hbefore k (by omega)
            · rintro ⟨hget, hbefore⟩
              refine ⟨by simpa using hget, ?_⟩
              intro k hk
              have := hbefore (k + 1) (by omega)
              rwa [List.getElem?_cons_succ] at this

theorem lastIdxOf_eq_some_iff (c : Char) (cs : List Char) (j : Nat) :
    lastIdxOf c cs = some j ↔ IsLastOccAt c cs j := by
  induction cs generalizing j with
  | nil =>
      simp [lastIdxOf, IsLastOccAt]
  | cons a rest ih =>
      rw [lastIdxOf]
      rcases hL : lastIdxOf c rest with _ | j'
      · have hnotin : c ∉ rest := (lastIdxOf_eq_none_iff c rest).mp hL
        by_cases hac : a == c
        · simp only [hac, if_true]
          constructor
          · intro h
            injection h with h
            subst h
            refine ⟨by simpa using eq_of_beq hac, ?_⟩
            intro k hk hk0
            cases k with
            | zero => omega
            | succ k =>
                rw [List.getElem?_cons_succ]
                intro hcon
                exact hnotin (List.mem_iff_getElem?.mpr ⟨k, hcon⟩)
          · rintro ⟨hget, hafter⟩
            cases j with
            | zero => rfl
            | succ j =>
                rw [List.getElem?_cons_succ] at hget
                exact absurd (List.mem_iff_getElem?.mpr ⟨j, hget⟩) hnotin
        · simp only [hac, Bool.false_eq_true, if_false]
          constructor
          · intro h; cases h
          · rintro ⟨hget, -⟩
            cases j with
            | zero =>
                rw [List.getElem?_cons_zero] at hget
                injection hget with hget
                exact absurd (beq_iff_eq.mpr hget) (by simpa using hac)
            | succ j =>
                rw [List.getElem?_cons_succ] at hget
                exact absurd (List.mem_iff_getElem?.mpr ⟨j, hget⟩) hnotin
      · constructor
        · intro h
          injection h with h
          subst h
          obtain ⟨hget, hafter⟩ := ih j' |>.mp hL
          refine ⟨by simpa using hget, ?_⟩
          intro k hk hk'
          cases k with
          | zero => omega
          | succ k =>
              rw [List.getElem?_cons_succ]
              exact hafter k (by simpa using hk) (by omega)
        · rintro ⟨hget, hafter⟩
          cases j with
          | zero =>
              obtain ⟨hget', -⟩ := ih j' |>.mp hL
              have hlen : j' < rest.length := (List.getElem?_eq_some.mp hget').1
              have := hafter (j' + 1) (by simpa using hlen) (by omega)
              rw [List.getElem?_cons_succ] at this
              exact absurd hget' this
          | succ j =>
              rw [List.getElem?_cons_succ] at hget
              have : IsLastOccAt c rest j := by
                refine ⟨hget, ?_⟩
                intro k hk hk'
                have := hafter (k + 1) (by simpa using hk) (by omega)
                rwa [List.getElem?_cons_succ] at this
              have := (ih j).mpr this
              rw [hL] at this
              injection this with this
              rw [this]

namespace GoMain

/-- JSON extraction of `generateTestsHandler` (`main.go` lines 580-589):
`jsonStart := strings.Index(text, "{")`, `jsonEnd := strings.LastIndex(text,
"}")`; an error is reported when either is `-1` or `jsonStart >= jsonEnd`,
and otherwise `generatedText[jsonStart : jsonEnd+1]` is extracted. -/
def extractJson (generatedText : List Char) : Option (List Char) :=
  match firstIdxOf '{' generatedText, lastIdxOf '}' generatedText with
  | some jsonStart, some jsonEnd =>
      if jsonStart < jsonEnd then
        some ((generatedText.drop jsonStart).take (jsonEnd - jsonStart + 1))
      else none
  | _, _ => none

end GoMain

namespace Backend

/-- JSON extraction of `generateTests` (`backend.ts` lines 467-470): the
first match of `/\{[\s\S]*\}/` in the generated text, or `none` when the
regular expression does not match.  The scan tries each start position from
the left; at a start holding `'{'` the greedy `[\s\S]*` extends to the last
`'}'` of the remaining text. -/
def extractJson : List Char → Option (List Char)
  | [] => none
  | c :: rest =>
      if c == '{' then
        match lastIdxOf '}' rest with
        | some j => some ('{' :: rest.take (j + 1))
        | none => extractJson rest
      else extractJson rest

end Backend

theorem firstIdxOf_cons_self (rest : List Char) :
    firstIdxOf '{' ('{' :: rest) = some 0 := by
  rw [firstIdxOf]
  simp

theorem goExtract_eq_none_left {cs : List Char}
    (hF : firstIdxOf '{' cs = none) : GoMain.extractJson cs = none := by
  rw [GoMain.extractJson, hF]

theorem goExtract_eq_none_right {cs : List Char}
    (hL : lastIdxOf '}' cs = none) : GoMain.extractJson cs = none := by
  rw [GoMain.extractJson, hL]
  rcases hF : firstIdxOf '{' cs with _ | i <;> rfl

theorem goExtract_eq_of_some {cs : List Char} {i j : Nat}
    (hF : firstIdxOf '{' cs = some i) (hL : lastIdxOf '}' cs = some j) :
    GoMain.extractJson cs
      = if i < j then some ((cs.drop i).take (j - i + 1)) else none := by
  rw [GoMain.extractJson, hF, hL]

/-- C10.  The TypeScript extraction (first match of `/\{[\s\S]*\}/`) and the
Go extraction (substring from the first `'{'` through the last `'}'`, required
to be in that order) agree on every text: they fail on the same inputs and
otherwise produce the identical substring. -/
theorem extractJson_ts_eq_go (cs : List Char) :
    Backend.extractJson cs = GoMain.extractJson cs := by
  induction cs with
  | nil => rfl
  | cons c rest ih =>
      rw [Backend.extractJson]
      by_cases hc : c == '{'
      · have hceq : c = '{' := eq_of_beq hc
        subst hceq
        rw [if_pos hc]
        rcases hL : lastIdxOf '}' rest with _ | j
        · have hLc : lastIdxOf '}' ('{' :: rest) = none := by
            rw [lastIdxOf, hL]
            rfl
          rw [ih, goExtract_eq_none_right hLc, goExtract_eq_none_right hL]
        · have hLc : lastIdxOf '}' ('{' :: rest) = some (j + 1) := by
            rw [lastIdxOf, hL]
          rw [goExtract_eq_of_some (firstIdxOf_cons_self rest) hLc]
          rw [if_pos (by omega)]
          simp only [List.drop_zero]
          rw [show j + 1 - 0 + 1 = j + 2 by omega, List.take_succ_cons]
      · simp only [hc, Bool.false_eq_true, if_false]
        rw [ih]
        have hFc : firstIdxOf '{' (c :: rest) = (firstIdxOf '{' rest).map (· + 1) := by
          rw [firstIdxOf]
          simp only [hc, Bool.false_eq_true, if_false]
        rcases hF : firstIdxOf '{' rest with _ | i
        · rw [goExtract_eq_none_left hF,
            goExtract_eq_none_left (by rw [hFc, hF]; rfl)]
        · have hFc' : firstIdxOf '{' (c :: rest) = some (i + 1) := by
            rw [hFc, hF]
            rfl
          rcases hL : lastIdxOf '}' rest with _ | j
          · have hLc : lastIdxOf '}' (c :: rest)
                = if c == '}' then some 0 else none := by
              rw [lastIdxOf, hL]
            rw [goExtract_eq_none_right hL]
            by_cases hcc : c == '}'
            · rw [goExtract_eq_of_some hFc' (by rw [hLc, if_pos hcc])]
              rw [if_neg (by omega)]
            · rw [goExtract_eq_none_right (by rw [hLc, if_neg hcc])]
          · have hLc : lastIdxOf '}' (c :: rest) = some (j + 1) := by
              rw [lastIdxOf, hL]
            rw [goExtract_eq_of_some hF hL, goExtract_eq_of_some hFc' hLc]
            by_cases hij : i < j
            · rw [if_pos hij, if_pos (by omega), List.drop_succ_cons,
                show j + 1 - (i + 1) + 1 = j - i + 1 by omega]
            · rw [if_neg hij, if_neg (by omega)]

/-- C5.  The Go handler's extraction errors precisely when the text contains
no `'{'`, contains no `'}'`, or the first `'{'` does not sit strictly before
the last `'}'`; when the first `'{'` (at `i`) does sit before the last `'}'`
(at `j`), the substring from `i` through `j` inclusive is extracted. -/
theorem extractJson_go_error_iff (cs : List Char) :
    (GoMain.extractJson cs = none ↔
        ('{' ∉ cs ∨ '}' ∉ cs ∨
          ∀ i j, IsFirstOccAt '{' cs i → IsLastOccAt '}' cs j → j ≤ i)) ∧
    (∀ i j, IsFirstOccAt '{' cs i → IsLastOccAt '}' cs j → i < j →
        GoMain.extractJson cs = some ((cs.drop i).take (j - i + 1))) := by
  constructor
  · rcases hF : firstIdxOf '{' cs with _ | i
    · have hmem : '{' ∉ cs := (firstIdxOf_eq_none_iff _ _).mp hF
      rw [goExtract_eq_none_left hF]
      exact ⟨fun _ => Or.inl hmem, fun _ => rfl⟩
    · rcases hL : lastIdxOf '}' cs with _ | j
      · have hmem : '}' ∉ cs := (lastIdxOf_eq_none_iff _ _).mp hL
        rw [goExtract_eq_none_right hL]
        exact ⟨fun _ => Or.inr (Or.inl hmem), fun _ => rfl⟩
      · have hFi : IsFirstOccAt '{' cs i := (firstIdxOf_eq_some_iff _ _ _).mp hF
        have hLj : IsLastOccAt '}' cs j := (lastIdxOf_eq_some_iff _ _ _).mp hL
        rw [goExtract_eq_of_some hF hL]
        by_cases hij : i < j
        · rw [if_pos hij]
          constructor
          · intro h; cases h
          · intro h
            rcases h with h | h | h
            · exact absurd (List.mem_iff_getElem?.mpr ⟨i, hFi.1⟩) h
            · exact absurd (List.mem_iff_getElem?.mpr ⟨j, hLj.1⟩) h
            · exact absurd (h i j hFi hLj) (by omega)
        · rw [if_neg hij]
          refine ⟨fun _ => Or.inr (Or.inr ?_), fun _ => rfl⟩
          intro i' j' hFi' hLj'
          have hi : i' = i := by
            have h1 := (firstIdxOf_eq_some_iff '{' cs i').mpr hFi'
            rw [hF] at h1
            injection h1 with h2
            omega
          have hj : j' = j := by
            have h1 := (lastIdxOf_eq_some_iff '}' cs j').mpr hLj'
            rw [hL] at h1
            injection h1 with h2
            omega
          omega
  · intro i j hFi hLj hij
    rw [goExtract_eq_of_some ((firstIdxOf_eq_some_iff _ _ _).mpr hFi)
      ((lastIdxOf_eq_some_iff _ _ _).mpr hLj), if_pos hij]

/-- Witness for `extractJson_go_error_iff`: in `"x{a}y"` the first `'{'` sits
at index 1 and the last `'}'` at index 3, so the extraction succeeds with
`"{a}"`. -/
theorem extractJson_go_error_iff_witness :
    GoMain.extractJson "x\x7ba\x7dy".data = some "\x7ba\x7d".data := by
  have h := (extractJson_go_error_iff "x\x7ba\x7dy".data).2 1 3
    (by decide) (by decide) (by decide)
  rw [h]
  rfl

/-- Models `String.prototype.trim` and Go's `strings.TrimSpace` (ASCII
fragment): whitespace is removed from both ends. -/
def trimList (cs : List Char) : List Char :=
  ((cs.dropWhile isJsSpace).reverse.dropWhile isJsSpace).reverse

/-- Models `url.split(sep)[0]` / `strings.Split(url, sep)[0]` for a non-empty
separator: the part before the first occurrence of `needle`. -/
def beforeFirstSub (needle : List Char) : List Char → List Char
  | [] => []
  | c :: rest =>
      if needle.isPrefixOf (c :: rest) then []
      else c :: beforeFirstSub needle rest

/-- Models Go's `strings.TrimSuffix` and the end-anchored
`replace(/sfx$/, '')`: one copy of the suffix is removed when present. -/
def trimSuffixList (sfx cs : List Char) : List Char :=
  if sfx.reverse.isPrefixOf cs.reverse then cs.take (cs.length - sfx.length)
  else cs

/-- Models `String.prototype.replace` with a plain-string pattern: only the
first occurrence of `needle` is removed. -/
def removeFirstSub (needle : List Char) : List Char → List Char
  | [] => []
  | c :: rest =>
      if needle.isPrefixOf (c :: rest) then (c :: rest).drop needle.length
      else c :: removeFirstSub needle rest

namespace Api

/-- Attempt of the unanchored regex `github\.com\/([^\/]+)\/([^\/]+)/` at one
start position: the literal, then a maximal non-empty slash-free owner run,
a slash, and a maximal non-empty slash-free repo run. -/
def matchGithubAt (s : List Char) : Option (List Char × List Char) :=
  if ("github.com/".data).isPrefixOf s then
    let r := s.drop 11
    let owner := r.takeWhile (fun c => c != '/')
    if owner.isEmpty then none
    else
      match r.drop owner.length with
      | '/' :: r3 =>
          let repo := r3.takeWhile (fun c => c != '/')
          if repo.isEmpty then none else some (owner, repo)
      | _ => none
  else none

/-- Leftmost match of `url.match(/github\.com\/([^\/]+)\/([^\/]+)/)`
(`api.ts` line 101): start positions are scanned left to right. -/
def findGithubMatch : List Char → Option (List Char × List Char)
  | [] => none
  | c :: rest =>
      match matchGithubAt (c :: rest) with
      | some r => some r
      | none => findGithubMatch rest

/-- Models `parseGitHubUrl` of `api.ts` (lines 99-113): on a match, the owner is
trimmed and the repo has its first `'.git'` occurrence removed
(`repo.replace('.git', '')`) before trimming. -/
def parseGitHubUrl (url : String) : Option RepoInfo :=
  match findGithubMatch url.data with
  | none => none
  | some (owner, repo) =>
      some { owner := String.mk (trimList owner)
             repo := String.mk (trimList (removeFirstSub ".git".data repo)) }

end Api

namespace Backend

/-- Attempt of the end-anchored regex `github\.com\/([^\/]+)\/([^\/]+)$` at
one start position: after the literal, the rest of the string must consist of
exactly a non-empty slash-free owner, a slash and a non-empty slash-free
repo. -/
def matchGithubEndAt (s : List Char) : Option (List Char × List Char) :=
  if ("github.com/".data).isPrefixOf s then
    match splitOnChar '/' (s.drop 11) with
    | [x, y] => if x.isEmpty || y.isEmpty then none else some (x, y)
    | _ => none
  else none

/-- Leftmost match of the end-anchored owner/repo regex (`backend.ts`
line 111). -/
def findGithubEndMatch : List Char → Option (List Char × List Char)
  | [] => none
  | c :: rest =>
      match matchGithubEndAt (c :: rest) with
      | some r => some r
      | none => findGithubEndMatch rest

/-- Models `ClientBackend.parseGitHubUrl` (`backend.ts` lines 89-128): the URL is
cleaned (cut at `/blob/` and `/tree/`, one trailing slash and one trailing
`.git` removed), then matched against the end-anchored owner/repo regex; a
blank owner or repo after trimming is rejected. -/
def parseGitHubUrl (url : String) : Option RepoInfo :=
  let cleanURL := url.data
  let cleanURL :=
    if containsSub "/blob/".data cleanURL then beforeFirstSub "/blob/".data cleanURL
    else cleanURL
  let cleanURL :=
    if containsSub "/tree/".data cleanURL then beforeFirstSub "/tree/".data cleanURL
    else cleanURL
  let cleanURL := trimSuffixList "/".data cleanURL
  let cleanURL := trimSuffixList ".git".data cleanURL
  match findGithubEndMatch cleanURL with
  | none => none
  | some (o, r) =>
      let owner := trimList o
      let repo := trimList r
      if owner.isEmpty || repo.isEmpty then none
      else some { owner := String.mk owner, repo := String.mk repo }

end Backend

namespace GoMain

/-- One attempt of Go's `github\.com/([^/]+)/([^/]+)$` at a start position,
identical in meaning to the TypeScript end-anchored attempt. -/
def matchGithubEndAt (s : List Char) : Option (List Char × List Char) :=
  if ("github.com/".data).isPrefixOf s then
    match splitOnChar '/' (s.drop 11) with
    | [x, y] => if x.isEmpty || y.isEmpty then none else some (x, y)
    | _ => none
  else none

/-- Leftmost match of `re.FindStringSubmatch` for the end-anchored regex
(`main.go` lines 115-116). -/
def findGithubEndMatch : List Char → Option (List Char × List Char)
  | [] => none
  | c :: rest =>
      match matchGithubEndAt (c :: rest) with
      | some r => some r
      | none => findGithubEndMatch rest

/-- Models `parseGitHubURL` of `main.go` (lines 94-130): cut at `/blob/` and
`/tree/`, `strings.TrimSuffix` of `"/"` and `".git"`, the end-anchored
regex, `strings.TrimSpace` on both captures, and a blank-owner/repo check. -/
def parseGitHubURL (url : String) : Option RepoInfo :=
  let cleanURL := url.data
  let cleanURL :=
    if containsSub "/blob/".data cleanURL then beforeFirstSub "/blob/".data cleanURL
    else cleanURL
  let cleanURL :=
    if containsSub "/tree/".data cleanURL then beforeFirstSub "/tree/".data cleanURL
    else cleanURL
  let cleanURL := trimSuffixList "/".data cleanURL
  let cleanURL := trimSuffixList ".git".data cleanURL
  match findGithubEndMatch cleanURL with
  | none => none
  | some (o, r) =>
      let owner := trimList o
      let repo := trimList r
      if owner.isEmpty || repo.isEmpty then none
      else some { owner := String.mk owner, repo := String.mk repo }

end GoMain

theorem findGithubEndMatch_backend_eq_go (cs : List Char) :
    Backend.findGithubEndMatch cs = GoMain.findGithubEndMatch cs := by
  induction cs with
  | nil => rfl
  | cons c rest ih =>
      rw [Backend.findGithubEndMatch, GoMain.findGithubEndMatch]
      rw [show Backend.matchGithubEndAt (c :: rest)
          = GoMain.matchGithubEndAt (c :: rest) from rfl]
      rcases GoMain.matchGithubEndAt (c :: rest) with _ | r
      · exact ih
      · rfl

/-- C6 (counterexample to the claim as stated).  The URL
`https://github.com/a/b/c` contains the component `github.com/a/b` (owner and
repo non-empty and slash-free), and the `api.ts` parser indeed returns
`(a, b)`; but the `backend.ts` and `main.go` parsers fail on it, because
their regex is anchored at the end of the cleaned URL — so the three parsers
do not all fail exactly on the strings without such a component. -/
theorem parseGitHubUrl_claim_counterexample :
    containsSub "github.com/a/b".data "https://github.com/a/b/c".data = true ∧
    Api.parseGitHubUrl "https://github.com/a/b/c"
      = some { owner := "a", repo := "b" } ∧
    Backend.parseGitHubUrl "https://github.com/a/b/c" = none ∧
    GoMain.parseGitHubURL "https://github.com/a/b/c" = none := by
  refine ⟨by rfl, by rfl, by rfl, by rfl⟩

/-- C6 (amended).  `parseGitHubUrl` in `backend.ts` and `parseGitHubURL` in
`main.go` implement the same function: on every input both fail or both
return the same owner/repo (after cutting `/blob/…` and `/tree/…`, one
trailing slash and one trailing `.git`, the cleaned string must end with
`github.com/<owner>/<repo>`).  The `api.ts` parser instead takes the first
`github.com/<owner>/<repo>` match anywhere in the string and removes the
first `'.git'` occurrence from the repo, so it can succeed where the other
two fail — e.g. on `github.com/x/y/z`. -/
theorem parseGitHubUrl_backend_eq_go :
    (∀ url : String, Backend.parseGitHubUrl url = GoMain.parseGitHubURL url) ∧
    Api.parseGitHubUrl "github.com/x/y/z" = some { owner := "x", repo := "y" } ∧
    Backend.parseGitHubUrl "github.com/x/y/z" = none := by
  refine ⟨fun url => ?_, by rfl, by rfl⟩
  simp only [Backend.parseGitHubUrl, GoMain.parseGitHubURL]
  rw [findGithubEndMatch_backend_eq_go]

theorem getLast?_cons_of_ne_nil {α : Type} (x : α) {l : List α} (h : l ≠ []) :
    (x :: l).getLast? = l.getLast? := by
  cases l with
  | nil => cases h rfl
  | cons b t => exact List.getLast?_cons_cons

theorem takeWhile_append_of_stop {p : Char → Bool} {l : List Char}
    (l2 : List Char) (x : Char) (hx : x ∈ l) (hpx : p x = false) :
    (l ++ l2).takeWhile p = l.takeWhile p := by
  induction l with
  | nil => cases hx
  | cons a rest ih =>
      rw [List.cons_append, List.takeWhile_cons, List.takeWhile_cons]
      rcases List.mem_cons.mp hx with rfl | hx'
      · rw [hpx]
        rfl
      · cases hpa : p a
        · rfl
        · rw [ih hx']

theorem splitOnCharAux_getLast? (sep : Char) (cs acc : List Char) :
    (splitOnCharAux sep cs acc).getLast? =
      some (if sep ∈ cs then (cs.reverse.takeWhile (fun c => c != sep)).reverse
            else acc.reverse ++ cs) := by
  induction cs generalizing acc with
  | nil =>
      simp [splitOnCharAux]
  | cons a rest ih =>
      rw [splitOnCharAux]
      by_cases hsep : a == sep
      · have ha : a = sep := eq_of_beq hsep
        subst ha
        rw [if_pos hsep,
          getLast?_cons_of_ne_nil _ (splitOnCharAux_ne_nil a rest []), ih,
          if_pos (List.mem_cons_self a rest)]
        by_cases hmem : a ∈ rest
        · rw [if_pos hmem]
          congr 2
          rw [List.reverse_cons]
          exact (takeWhile_append_of_stop [a] a
            (by simpa using hmem) (by simp)).symm
        · rw [if_neg hmem]
          have hall : ∀ x ∈ rest.reverse, (x != a) = true := by
            intro x hxr
            have hxm : x ∈ rest := List.mem_reverse.mp hxr
            have : x ≠ a := fun he => hmem (he ▸ hxm)
            simpa using this
          rw [List.reverse_cons, List.takeWhile_append_of_pos hall]
          simp
      · rw [if_neg (by simpa using hsep), ih]
        have hmemiff : sep ∈ a :: rest ↔ sep ∈ rest := by
          constructor
          · intro h
            rcases List.mem_cons.mp h with rfl | h'
            · simp at hsep
            · exact h'
          · exact fun h => List.mem_cons_of_mem a h
        by_cases hmem : sep ∈ rest
        · rw [if_pos hmem, if_pos (hmemiff.mpr hmem)]
          congr 2
          rw [List.reverse_cons]
          exact (takeWhile_append_of_stop [a] sep
            (by simpa using hmem) (by simp)).symm
        · rw [if_neg hmem, if_neg (fun h => hmem (hmemiff.mp h))]
          simp

theorem lastSegment_eq_rtw (sep : Char) (cs : List Char) :
    lastSegment sep cs = (cs.reverse.takeWhile (fun c => c != sep)).reverse := by
  have h := splitOnCharAux_getLast? sep cs []
  rw [show splitOnCharAux sep cs [] = splitOnChar sep cs from rfl,
    List.getLast?_eq_getLast _ (splitOnChar_ne_nil sep cs)] at h
  injection h with h
  rw [show (splitOnChar sep cs).getLast (splitOnChar_ne_nil sep cs)
      = lastSegment sep cs from rfl] at h
  by_cases hmem : sep ∈ cs
  · rw [if_pos hmem] at h
    exact h
  · rw [if_neg hmem] at h
    simp only [List.reverse_nil, List.nil_append] at h
    have hall : ∀ x ∈ cs.reverse, (x != sep) = true := by
      intro x hx
      have hxc : x ∈ cs := List.mem_reverse.mp hx
      have : x ≠ sep := fun he => hmem (he ▸ hxc)
      simpa using this
    rw [h, List.takeWhile_eq_self_iff.mpr hall, List.reverse_reverse]

theorem lastSegment_of_not_mem {sep : Char} {cs : List Char} (h : sep ∉ cs) :
    lastSegment sep cs = cs := by
  rw [lastSegment_eq_rtw]
  have hall : ∀ x ∈ cs.reverse, (x != sep) = true := by
    intro x hx
    have hxc : x ∈ cs := List.mem_reverse.mp hx
    have : x ≠ sep := fun he => h (he ▸ hxc)
    simpa using this
  rw [List.takeWhile_eq_self_iff.mpr hall, List.reverse_reverse]

theorem mem_of_mem_lastSegment {sep : Char} {cs : List Char} {x : Char}
    (hx : x ∈ lastSegment sep cs) : x ∈ cs := by
  rw [lastSegment_eq_rtw] at hx
  have h1 := List.mem_reverse.mp hx
  have h2 := (List.takeWhile_sublist _).subset h1
  exact List.mem_reverse.mp h2

theorem takeWhile_takeWhile_of_stop {p q : Char → Bool} (l : List Char) (x : Char)
    (hx : x ∈ l.takeWhile q) (hpx : p x = false) :
    l.takeWhile p = (l.takeWhile q).takeWhile p := by
  induction l with
  | nil => cases hx
  | cons a rest ih =>
      cases hqa : q a
      · rw [List.takeWhile_cons, hqa] at hx
        cases hx
      · rw [List.takeWhile_cons, hqa] at hx
        simp only [if_true] at hx
        cases hpa : p a
        · rw [List.takeWhile_cons, List.takeWhile_cons, hqa]
          simp only [if_true]
          rw [List.takeWhile_cons, hpa]
          rfl
        · rcases List.mem_cons.mp hx with rfl | hx'
          · rw [hpa] at hpx
            cases hpx
          · rw [List.takeWhile_cons, List.takeWhile_cons, hqa]
            simp only [if_true]
            rw [List.takeWhile_cons, hpa]
            simp only [if_true]
            rw [ih hx']

theorem mem_takeWhile_of_stop_other {l : List Char} {c1 c2 : Char}
    (hne : (c2 != c1) = true) (hc2 : c2 ∈ l)
    (hno : c1 ∉ l.takeWhile (fun c => c != c2)) :
    c2 ∈ l.takeWhile (fun c => c != c1) := by
  induction l with
  | nil => cases hc2
  | cons a rest ih =>
      by_cases hac2 : a = c2
      · subst hac2
        rw [List.takeWhile_cons, hne]
        exact List.mem_cons_self _ _
      · rcases List.mem_cons.mp hc2 with rfl | hc2'
        · cases hac2 rfl
        · have hpa2 : (a != c2) = true := by simpa using hac2
          rw [List.takeWhile_cons, hpa2] at hno
          simp only [if_true, List.mem_cons, not_or] at hno
          have hpa1 : (a != c1) = true := by
            simpa using fun he => hno.1 he.symm
          rw [List.takeWhile_cons, hpa1]
          simp only [if_true]
          exact List.mem_cons_of_mem a (ih hc2' hno.2)

theorem lastSegment_dot_eq_base {cs : List Char}
    (hdot : '.' ∈ lastSegment '/' cs) :
    lastSegment '.' cs = lastSegment '.' (lastSegment '/' cs) := by
  rw [lastSegment_eq_rtw '/' cs] at hdot ⊢
  rw [lastSegment_eq_rtw '.', lastSegment_eq_rtw '.', List.reverse_reverse]
  have hx : '.' ∈ cs.reverse.takeWhile (fun c => c != '/') :=
    List.mem_reverse.mp hdot
  rw [← takeWhile_takeWhile_of_stop cs.reverse '.' hx (by decide)]

theorem slash_mem_lastSegment_dot {cs : List Char}
    (hdot : '.' ∈ cs) (hbase : '.' ∉ lastSegment '/' cs) :
    '/' ∈ lastSegment '.' cs := by
  rw [lastSegment_eq_rtw] at hbase ⊢
  rw [List.mem_reverse]
  have hno : '.' ∉ cs.reverse.takeWhile (fun c => c != '/') :=
    fun h => hbase (List.mem_reverse.mpr h)
  have hslash : '/' ∈ cs.reverse := by
    by_contra hnos
    have hall : ∀ x ∈ cs.reverse, (x != '/') = true := by
      intro x hx
      have : x ≠ '/' := fun he => hnos (he ▸ hx)
      simpa using this
    rw [List.takeWhile_eq_self_iff.mpr hall] at hno
    exact hno (List.mem_reverse.mpr hdot)
  exact mem_takeWhile_of_stop_other (by decide) hslash hno

/-- The three groups `generatePromptContext` sorts files into (`backend.ts`
lines 277-291, `main.go` lines 232-245). -/
inductive FileGroup where
  | goGroup
  | configGroup
  | otherGroup
deriving DecidableEq, BEq, Repr

/-- Rendering of a single file inside the context, shared verbatim by both
implementations: `backend.ts` line 302 and `main.go` line 251 produce
`// File: <path>\n<content>\n\n---\n`. -/
def formatFileEntry (f : FileContent) : String :=
  "// File: " ++ f.path ++ "\n" ++ f.content ++ "\n\n---\n"

namespace GoMain

/-- Models Go's `filepath.Ext` (used at `main.go` line 237): the suffix of
the final path element beginning at its final dot, or empty when the final
element has no dot. -/
def filepathExt (path : String) : List Char :=
  if '.' ∈ lastSegment '/' path.data then
    '.' :: lastSegment '.' (lastSegment '/' path.data)
  else []

/-- The grouping test of the Go `generatePromptContext` (`main.go` lines
236-245): the lowered `filepath.Ext` is compared with `.go` and the config
extensions, and `go.mod`/`go.sum` are sought in the lowered path. -/
def classifyFile (path : String) : FileGroup :=
  if String.mk (toLowerList (filepathExt path)) == ".go" then FileGroup.goGroup
  else if String.mk (toLowerList (filepathExt path)) == ".json"
      || String.mk (toLowerList (filepathExt path)) == ".yaml"
      || String.mk (toLowerList (filepathExt path)) == ".yml"
      || String.mk (toLowerList (filepathExt path)) == ".toml"
      || String.mk (toLowerList (filepathExt path)) == ".ini"
      || String.mk (toLowerList (filepathExt path)) == ".env"
      || containsSub "go.mod".data (toLowerList path.data)
      || containsSub "go.sum".data (toLowerList path.data) then
    FileGroup.configGroup
  else FileGroup.otherGroup

/-- The Go `generatePromptContext` (`main.go` lines 222-275): fixed header,
the three groups in order (each with its banner when non-empty, preserving
input order), and the fixed footer. -/
def generatePromptContext (files : List FileContent) : String :=
  "=== REPOSITORY CODE CONTEXT FOR TEST GENERATION ===\n\n" ++
  "This context contains all source code files from the cloned repository.\n" ++
  "Generate comprehensive test cases based on the functions, methods, and logic found in these files.\n\n" ++
  "=== FILES ===\n\n" ++
  (if (files.filter fun f => classifyFile f.path == FileGroup.goGroup).isEmpty then ""
   else "=== GO SOURCE FILES ===\n\n" ++
     String.join ((files.filter fun f => classifyFile f.path == FileGroup.goGroup).map
       formatFileEntry)) ++
  (if (files.filter fun f => classifyFile f.path == FileGroup.configGroup).isEmpty then ""
   else "=== CONFIGURATION FILES ===\n\n" ++
     String.join ((files.filter fun f => classifyFile f.path == FileGroup.configGroup).map
       formatFileEntry)) ++
  (if (files.filter fun f => classifyFile f.path == FileGroup.otherGroup).isEmpty then ""
   else "=== OTHER FILES ===\n\n" ++
     String.join ((files.filter fun f => classifyFile f.path == FileGroup.otherGroup).map
       formatFileEntry)) ++
  "\n=== END OF CONTEXT ===\n" ++
  "Generate comprehensive test cases for the functions and methods found in the above code.\n"

end GoMain

namespace Backend

/-- The grouping test of the client `generatePromptContext` (`backend.ts`
lines 281-291): the lowered dotless `split('.').pop()` is compared with `go`
and the config-extension array, and `go.mod`/`go.sum` are sought in the
path as-is (case-sensitively). -/
def classifyFile (path : String) : FileGroup :=
  if String.mk (toLowerList (lastSegment '.' path.data)) == "go" then FileGroup.goGroup
  else if (["json", "yaml", "yml", "toml", "ini", "env"] : List String).any
        (fun p => p == String.mk (toLowerList (lastSegment '.' path.data)))
      || containsSub "go.mod".data path.data
      || containsSub "go.sum".data path.data then FileGroup.configGroup
  else FileGroup.otherGroup

/-- The client `generatePromptContext` (`backend.ts` lines 275-326): fixed
header, the three groups with their banners, fixed footer. -/
def generatePromptContext (files : List FileContent) : String :=
  "=== REPOSITORY CODE CONTEXT FOR TEST GENERATION ===\n\n" ++
  "This context contains all source code files from the cloned repository.\n" ++
  "Generate comprehensive test cases based on the functions, methods, and logic found in these files.\n\n" ++
  "=== FILES ===\n\n" ++
  (if (files.filter fun f => classifyFile f.path == FileGroup.goGroup).isEmpty then ""
   else "=== GO SOURCE FILES ===\n\n" ++
     String.join ((files.filter fun f => classifyFile f.path == FileGroup.goGroup).map
       formatFileEntry)) ++
  (if (files.filter fun f => classifyFile f.path == FileGroup.configGroup).isEmpty then ""
   else "=== CONFIGURATION FILES ===\n\n" ++
     String.join ((files.filter fun f => classifyFile f.path == FileGroup.configGroup).map
       formatFileEntry)) ++
  (if (files.filter fun f => classifyFile f.path == FileGroup.otherGroup).isEmpty then ""
   else "=== OTHER FILES ===\n\n" ++
     String.join ((files.filter fun f => classifyFile f.path == FileGroup.otherGroup).map
       formatFileEntry)) ++
  "\n=== END OF CONTEXT ===\n" ++
  "Generate comprehensive test cases for the functions and methods found in the above code.\n"

end Backend

theorem mk_beq_eq_false_of_mem {l : List Char} {s : String} {c : Char}
    (hc : c ∈ l) (hs : c ∉ s.data) : (String.mk l == s) = false := by
  rw [beq_eq_false_iff_ne]
  intro he
  apply hs
  have hld : l = s.data := congrArg String.data he
  exact hld ▸ hc

theorem any_beq_mk_eq_false {xs : List String} {l : List Char} {c : Char}
    (hc : c ∈ l) (hall : ∀ p ∈ xs, c ∉ p.data) :
    (xs.any fun p => p == String.mk l) = false := by
  rw [List.any_eq_false]
  intro p hp
  rw [Bool.not_eq_true, beq_eq_false_iff_ne]
  intro he
  exact hall p hp (by rw [he]; exact hc)

theorem string_beq_comm (s t : String) : (s == t) = (t == s) := Bool.beq_comm

theorem dot_ext_beq (l : List Char) (s t : String) (h : t.data = '.' :: s.data) :
    (String.mk ('.' :: l) == t) = (String.mk l == s) := by
  by_cases hl : l = s.data
  · subst hl
    have ht : t = String.mk ('.' :: s.data) := by
      calc t = String.mk t.data := rfl
        _ = String.mk ('.' :: s.data) := by rw [h]
    rw [ht, show String.mk s.data = s from rfl]
    simp
  · have h1 : (String.mk ('.' :: l) == t) = false := by
      rw [beq_eq_false_iff_ne]
      intro he
      have hdata : ('.' :: l) = t.data := congrArg String.data he
      rw [h] at hdata
      exact hl (by injection hdata)
    have h2 : (String.mk l == s) = false := by
      rw [beq_eq_false_iff_ne]
      intro he
      exact hl (congrArg String.data he)
    rw [h1, h2]

theorem containsSub_eq_false_of_not_mem {needle hay : List Char} {c : Char}
    (hc : c ∈ needle) (hh : c ∉ hay) : containsSub needle hay = false := by
  induction hay with
  | nil =>
      rw [containsSub]
      cases needle with
      | nil => cases hc
      | cons => rfl
  | cons a rest ih =>
      rw [containsSub]
      have h1 : needle.isPrefixOf (a :: rest) = false := by
        cases hp : needle.isPrefixOf (a :: rest)
        · rfl
        · have hpre : needle <+: a :: rest := List.isPrefixOf_iff_prefix.mp hp
          exact absurd (hpre.subset hc) hh
      rw [h1]
      simp only [Bool.false_or]
      exact ih (fun hm => hh (List.mem_cons_of_mem a hm))

theorem keyword_any_eq (l : List Char) :
    ((["json", "yaml", "yml", "toml", "ini", "env"] : List String).any
      (fun p => p == String.mk l))
    = ((String.mk ('.' :: l) == ".json") || (String.mk ('.' :: l) == ".yaml")
      || (String.mk ('.' :: l) == ".yml") || (String.mk ('.' :: l) == ".toml")
      || (String.mk ('.' :: l) == ".ini") || (String.mk ('.' :: l) == ".env")) := by
  simp only [List.any_cons, List.any_nil, Bool.or_false]
  rw [dot_ext_beq l "json" ".json" rfl, dot_ext_beq l "yaml" ".yaml" rfl,
    dot_ext_beq l "yml" ".yml" rfl, dot_ext_beq l "toml" ".toml" rfl,
    dot_ext_beq l "ini" ".ini" rfl, dot_ext_beq l "env" ".env" rfl,
    string_beq_comm "json" (String.mk l), string_beq_comm "yaml" (String.mk l),
    string_beq_comm "yml" (String.mk l), string_beq_comm "toml" (String.mk l),
    string_beq_comm "ini" (String.mk l), string_beq_comm "env" (String.mk l)]
  simp only [Bool.or_assoc]

/-- Alignment condition under which the client and Go context generators
classify a path identically: the case-insensitive `go.mod`/`go.sum`
containment of the Go version coincides with the case-sensitive containment
of the client version, and the path either has a dot or is not itself one of
the bare extension keywords. -/
def PathAligned (path : String) : Prop :=
  containsSub "go.mod".data (toLowerList path.data)
      = containsSub "go.mod".data path.data ∧
  containsSub "go.sum".data (toLowerList path.data)
      = containsSub "go.sum".data path.data ∧
  ('.' ∈ path.data ∨
    (String.mk (toLowerList path.data)) ∉
      (["go", "json", "yaml", "yml", "toml", "ini", "env"] : List String))

instance (path : String) : Decidable (PathAligned path) := by
  unfold PathAligned
  infer_instance

theorem classifyFile_eq (path : String) (h : PathAligned path) :
    Backend.classifyFile path = GoMain.classifyFile path := by
  obtain ⟨h1, h2, h3⟩ := h
  by_cases hdot : '.' ∈ path.data
  · by_cases hbase : '.' ∈ lastSegment '/' path.data
    · -- the final path element carries the last dot: the two extension
      -- computations agree up to the leading dot
      have hsegeq := lastSegment_dot_eq_base hbase
      have hext : GoMain.filepathExt path
          = '.' :: lastSegment '.' (lastSegment '/' path.data) := by
        unfold GoMain.filepathExt
        rw [if_pos hbase]
      unfold Backend.classifyFile GoMain.classifyFile
      rw [hsegeq, hext,
        show toLowerList ('.' :: lastSegment '.' (lastSegment '/' path.data))
          = '.' :: toLowerList (lastSegment '.' (lastSegment '/' path.data)) from rfl,
        dot_ext_beq (toLowerList (lastSegment '.' (lastSegment '/' path.data)))
          "go" ".go" rfl,
        keyword_any_eq (toLowerList (lastSegment '.' (lastSegment '/' path.data))),
        h1, h2]
    · -- the last dot sits before the last slash: the client extension
      -- contains a slash and the Go extension is empty
      have hslash : '/' ∈ lastSegment '.' path.data :=
        slash_mem_lastSegment_dot hdot hbase
      have hslash' : '/' ∈ toLowerList (lastSegment '.' path.data) :=
        List.mem_map.mpr ⟨'/', hslash, rfl⟩
      have hext : GoMain.filepathExt path = [] := by
        unfold GoMain.filepathExt
        rw [if_neg hbase]
      have hTS : Backend.classifyFile path
          = (if containsSub "go.mod".data path.data
              || containsSub "go.sum".data path.data then FileGroup.configGroup
             else FileGroup.otherGroup) := by
        unfold Backend.classifyFile
        rw [mk_beq_eq_false_of_mem hslash' (by decide),
          any_beq_mk_eq_false hslash' (by decide)]
        simp only [Bool.false_or, Bool.false_eq_true, if_false]
      have hGO : GoMain.classifyFile path
          = (if containsSub "go.mod".data path.data
              || containsSub "go.sum".data path.data then FileGroup.configGroup
             else FileGroup.otherGroup) := by
        unfold GoMain.classifyFile
        rw [hext, h1, h2]
        simp only [show (String.mk (toLowerList ([] : List Char)) == (".go" : String))
            = false from rfl,
          show (String.mk (toLowerList ([] : List Char)) == (".json" : String))
            = false from rfl,
          show (String.mk (toLowerList ([] : List Char)) == (".yaml" : String))
            = false from rfl,
          show (String.mk (toLowerList ([] : List Char)) == (".yml" : String))
            = false from rfl,
          show (String.mk (toLowerList ([] : List Char)) == (".toml" : String))
            = false from rfl,
          show (String.mk (toLowerList ([] : List Char)) == (".ini" : String))
            = false from rfl,
          show (String.mk (toLowerList ([] : List Char)) == (".env" : String))
            = false from rfl,
          Bool.false_or, Bool.false_eq_true, if_false]
      rw [hTS, hGO]
  · -- no dot anywhere: both sides classify into the other-files group
    have hnot : (String.mk (toLowerList path.data)) ∉
        (["go", "json", "yaml", "yml", "toml", "ini", "env"] : List String) := by
      rcases h3 with hdot' | hnot
      · exact absurd hdot' hdot
      · exact hnot
    have hseg : lastSegment '.' path.data = path.data :=
      lastSegment_of_not_mem hdot
    have hmod : containsSub "go.mod".data path.data = false :=
      containsSub_eq_false_of_not_mem (show '.' ∈ "go.mod".data by decide) hdot
    have hsum : containsSub "go.sum".data path.data = false :=
      containsSub_eq_false_of_not_mem (show '.' ∈ "go.sum".data by decide) hdot
    have hTS : Backend.classifyFile path = FileGroup.otherGroup := by
      unfold Backend.classifyFile
      rw [hseg, hmod, hsum]
      rw [show (String.mk (toLowerList path.data) == ("go" : String)) = false from
        beq_eq_false_iff_ne.mpr (fun he => hnot (by rw [he]; decide))]
      rw [show ((["json", "yaml", "yml", "toml", "ini", "env"] : List String).any
          (fun p => p == String.mk (toLowerList path.data))) = false from ?_]
      · simp
      · rw [List.any_eq_false]
        intro p hp
        rw [Bool.not_eq_true, beq_eq_false_iff_ne]
        intro he
        apply hnot
        rw [← he]
        exact List.mem_cons_of_mem _ hp
    have hGO : GoMain.classifyFile path = FileGroup.otherGroup := by
      have hbase : ¬ '.' ∈ lastSegment '/' path.data :=
        fun hm => hdot (mem_of_mem_lastSegment hm)
      have hext : GoMain.filepathExt path = [] := by
        unfold GoMain.filepathExt
        rw [if_neg hbase]
      have hmod' : containsSub "go.mod".data (toLowerList path.data) = false :=
        containsSub_eq_false_of_not_mem (show '.' ∈ "go.mod".data by decide)
          (dot_not_mem_toLowerList hdot)
      have hsum' : containsSub "go.sum".data (toLowerList path.data) = false :=
        containsSub_eq_false_of_not_mem (show '.' ∈ "go.sum".data by decide)
          (dot_not_mem_toLowerList hdot)
      unfold GoMain.classifyFile
      rw [hext, hmod', hsum']
      simp only [show (String.mk (toLowerList ([] : List Char)) == (".go" : String))
          = false from rfl,
        show (String.mk (toLowerList ([] : List Char)) == (".json" : String))
          = false from rfl,
        show (String.mk (toLowerList ([] : List Char)) == (".yaml" : String))
          = false from rfl,
        show (String.mk (toLowerList ([] : List Char)) == (".yml" : String))
          = false from rfl,
        show (String.mk (toLowerList ([] : List Char)) == (".toml" : String))
          = false from rfl,
        show (String.mk (toLowerList ([] : List Char)) == (".ini" : String))
          = false from rfl,
        show (String.mk (toLowerList ([] : List Char)) == (".env" : String))
          = false from rfl,
        Bool.or_self, Bool.false_or, Bool.false_eq_true, if_false]
    rw [hTS, hGO]

set_option maxRecDepth 16384 in
/-- C7 (counterexample to the claim as stated).  On the single file
`GO.MOD` the Go generator files it under configuration files (it lowercases
the path before seeking `go.mod`) while the client generator, whose
containment check is case-sensitive, files it under other files; the two
context strings differ. -/
theorem generatePromptContext_claim_counterexample :
    Backend.classifyFile "GO.MOD" = FileGroup.otherGroup ∧
    GoMain.classifyFile "GO.MOD" = FileGroup.configGroup ∧
    GoMain.generatePromptContext [{ path := "GO.MOD", content := "module x", size := 8 }]
      ≠ Backend.generatePromptContext [{ path := "GO.MOD", content := "module x", size := 8 }] := by
  refine ⟨by rfl, by rfl, by decide⟩

/-- C7 (amended).  The abandoned Go `generatePromptContext` and the client
`generatePromptContext` produce the identical context string — same header
and footer, Go sources first, then configuration files, then other files,
each rendered as `// File: <path>` plus content and a `---` separator, input
order preserved within groups — for every file list whose paths are aligned:
each path's case-insensitive `go.mod`/`go.sum` containment agrees with the
case-sensitive one, and each path either contains a dot or is not itself a
bare extension keyword.  (Outside that alignment the generators differ, e.g.
on `GO.MOD`.) -/
theorem generatePromptContext_go_eq_ts (files : List FileContent)
    (h : ∀ f ∈ files, PathAligned f.path) :
    GoMain.generatePromptContext files = Backend.generatePromptContext files := by
  have hgo : files.filter (fun f => GoMain.classifyFile f.path == FileGroup.goGroup)
      = files.filter (fun f => Backend.classifyFile f.path == FileGroup.goGroup) :=
    List.filter_congr fun f hf => by rw [classifyFile_eq f.path (h f hf)]
  have hconfig : files.filter
        (fun f => GoMain.classifyFile f.path == FileGroup.configGroup)
      = files.filter (fun f => Backend.classifyFile f.path == FileGroup.configGroup) :=
    List.filter_congr fun f hf => by rw [classifyFile_eq f.path (h f hf)]
  have hother : files.filter
        (fun f => GoMain.classifyFile f.path == FileGroup.otherGroup)
      = files.filter (fun f => Backend.classifyFile f.path == FileGroup.otherGroup) :=
    List.filter_congr fun f hf => by rw [classifyFile_eq f.path (h f hf)]
  unfold GoMain.generatePromptContext Backend.generatePromptContext
  rw [hgo, hconfig, hother]

/-- Aligned sample for the witness: one Go source, one configuration file,
one other file, all lowercase paths with dots. -/
def alignedSampleFiles : List FileContent :=
  [{ path := "main.go", content := "package main", size := 12 },
   { path := "config.json", content := "\x7b\x7d", size := 2 },
   { path := "notes.txt", content := "hello", size := 5 }]

/-- Witness for `generatePromptContext_go_eq_ts` on `alignedSampleFiles`. -/
theorem generatePromptContext_go_eq_ts_witness :
    GoMain.generatePromptContext alignedSampleFiles
      = Backend.generatePromptContext alignedSampleFiles :=
  generatePromptContext_go_eq_ts alignedSampleFiles (by decide)

/-- JSON-like JavaScript values flowing through `generateTests`
(`backend.ts` lines 458-487): numbers are modelled as integers. -/
inductive JValue where
  | jnull
  | jbool (b : Bool)
  | jnum (n : Int)
  | jstr (s : String)
  | jarr (elems : List JValue)
  | jobj (fields : List (String × JValue))

/-- JavaScript property read: `none` models `undefined` (missing field or
non-object receiver). -/
def getField : JValue → String → Option JValue
  | JValue.jobj fields, key => (fields.find? (fun kv => kv.1 == key)).map (·.2)
  | _, _ => none

/-- JavaScript object-literal update `{...v, key: val}` restricted to the
fields this file inspects: on an object the key is overwritten (its position
normalised to the end), on a primitive only the explicit key survives. -/
def setField (v : JValue) (key : String) (val : JValue) : JValue :=
  match v with
  | JValue.jobj fields =>
      JValue.jobj ((fields.filter fun kv => !(kv.1 == key)) ++ [(key, val)])
  | _ => JValue.jobj [(key, val)]

/-- JavaScript truthiness of a value (NaN is not modelled). -/
def truthy : JValue → Bool
  | JValue.jnull => false
  | JValue.jbool b => b
  | JValue.jnum n => !(n == 0)
  | JValue.jstr s => !(s == "")
  | JValue.jarr _ => true
  | JValue.jobj _ => true

/-- Truthiness of a possibly-`undefined` value. -/
def truthyOpt : Option JValue → Bool
  | none => false
  | some v => truthy v

/-- Index-aware map, modelling `array.map((x, index) => ...)` from the given
start index. -/
def mapIdxFrom {α β : Type} (f : Nat → α → β) : Nat → List α → List β
  | _, [] => []
  | i, a :: rest => f i a :: mapIdxFrom f (i + 1) rest

/-- The per-test-case defaulting of `generateTests` (`backend.ts` lines
480-485): `{...testCase, id: testCase.id || `test_${index+1}`, testType:
testCase.testType || 'unit', priority: testCase.priority || 'medium'}`. -/
def applyDefaults (index : Nat) (tc : JValue) : JValue :=
  let idVal := match getField tc "id" with
    | some v => if truthy v then v else JValue.jstr ("test_" ++ toString (index + 1))
    | none => JValue.jstr ("test_" ++ toString (index + 1))
  let ttVal := match getField tc "testType" with
    | some v => if truthy v then v else JValue.jstr "unit"
    | none => JValue.jstr "unit"
  let prVal := match getField tc "priority" with
    | some v => if truthy v then v else JValue.jstr "medium"
    | none => JValue.jstr "medium"
  setField (setField (setField tc "id" idVal) "testType" ttVal) "priority" prVal

namespace Backend

/-- Models `ClientBackend.generateTests` (`backend.ts` lines 458-487) from the
Gemini text onward: regex extraction of the JSON object, `JSON.parse`
(modelled by the oracle `jsonParse`; `none` models a parse exception, which
the surrounding catch rethrows), the `testCases`-array check (`!testCases ||
!Array.isArray(testCases)` rejects exactly the non-array values), and the
defaulting map over the test cases. -/
def generateTests (jsonParse : String → Option JValue)
    (generatedText : String) : Except String JValue :=
  match extractJson generatedText.data with
  | none => Except.error "No valid JSON found in Gemini response"
  | some jsonChars =>
      match jsonParse (String.mk jsonChars) with
      | none => Except.error "Failed to parse JSON from Gemini response"
      | some parsedResponse =>
          match getField parsedResponse "testCases" with
          | some (JValue.jarr testCases) =>
              Except.ok (setField parsedResponse "testCases"
                (JValue.jarr (mapIdxFrom applyDefaults 0 testCases)))
          | _ => Except.error "Invalid test cases structure in Gemini response"

end Backend

theorem getField_setField_self (v : JValue) (key : String) (val : JValue) :
    getField (setField v key val) key = some val := by
  have hfind : ∀ fields : List (String × JValue),
      ((fields.filter fun kv => !(kv.1 == key)) ++ [(key, val)]).find?
        (fun kv => kv.1 == key) = some (key, val) := by
    intro fields
    induction fields with
    | nil => simp [List.find?]
    | cons kv rest ih =>
        rw [List.filter_cons]
        cases hk : kv.1 == key
        · simp only [Bool.not_false, if_true, List.cons_append, List.find?]
          rw [hk]
          exact ih
        · simp only [Bool.not_true, Bool.false_eq_true, if_false]
          exact ih
  cases v <;> simp [setField, getField, hfind, List.find?]

theorem getField_setField_ne (v : JValue) (key key' : String) (val : JValue)
    (hne : key' ≠ key) (hobj : ∃ fields, v = JValue.jobj fields) :
    getField (setField v key val) key' = getField v key' := by
  obtain ⟨fields, rfl⟩ := hobj
  simp only [setField, getField]
  congr 1
  induction fields with
  | nil =>
      simp only [List.filter_nil, List.nil_append, List.find?]
      rw [show (key == key') = false from
        beq_eq_false_iff_ne.mpr (fun he => hne he.symm)]
  | cons kv rest ih =>
      rw [List.filter_cons]
      cases hk : kv.1 == key
      · simp only [Bool.not_false, if_true, List.cons_append, List.find?]
        cases hk' : kv.1 == key'
        · exact ih
        · rfl
      · simp only [Bool.not_true, Bool.false_eq_true, if_false]
        have hkeq : kv.1 = key := eq_of_beq hk
        rw [List.find?]
        rw [show (kv.1 == key') = false from
          beq_eq_false_iff_ne.mpr (fun he => hne (he.symm.trans hkeq))]
        exact ih

theorem setField_isObj (v : JValue) (k : String) (val : JValue) :
    ∃ fields, setField v k val = JValue.jobj fields := by
  cases v <;> exact ⟨_, rfl⟩

theorem truthy_test_str (s : String) : truthy (JValue.jstr ("test_" ++ s)) = true := by
  have hne : (("test_" ++ s) == "") = false := by
    rw [beq_eq_false_iff_ne]
    intro he
    have h2 : "test_".data ++ s.data = ([] : List Char) := congrArg String.data he
    exact absurd (List.append_eq_nil.mp h2).1 (by decide)
  show (!(("test_" ++ s) == "")) = true
  rw [hne]
  rfl

theorem mapIdxFrom_getElem? {α β : Type} (f : Nat → α → β) (n : Nat)
    (l : List α) (j : Nat) :
    (mapIdxFrom f n l)[j]? = (l[j]?).map (f (n + j)) := by
  induction l generalizing n j with
  | nil => simp [mapIdxFrom]
  | cons a rest ih =>
      cases j with
      | zero => simp [mapIdxFrom]
      | succ j =>
          rw [mapIdxFrom]
          simp only [List.getElem?_cons_succ]
          rw [ih (n + 1) j, show n + 1 + j = n + (j + 1) from by omega]

theorem applyDefaults_props (i : Nat) (tc0 : JValue) :
    getField (applyDefaults i tc0) "id"
      = (if truthyOpt (getField tc0 "id") then getField tc0 "id"
         else some (JValue.jstr ("test_" ++ toString (i + 1)))) ∧
    getField (applyDefaults i tc0) "testType"
      = (if truthyOpt (getField tc0 "testType") then getField tc0 "testType"
         else some (JValue.jstr "unit")) ∧
    getField (applyDefaults i tc0) "priority"
      = (if truthyOpt (getField tc0 "priority") then getField tc0 "priority"
         else some (JValue.jstr "medium")) ∧
    truthyOpt (getField (applyDefaults i tc0) "id") = true ∧
    truthyOpt (getField (applyDefaults i tc0) "testType") = true ∧
    truthyOpt (getField (applyDefaults i tc0) "priority") = true := by
  have hpr : getField (applyDefaults i tc0) "priority"
      = some (match getField tc0 "priority" with
          | some v => if truthy v then v else JValue.jstr "medium"
          | none => JValue.jstr "medium") := by
    unfold applyDefaults
    exact getField_setField_self _ _ _
  have htt : getField (applyDefaults i tc0) "testType"
      = some (match getField tc0 "testType" with
          | some v => if truthy v then v else JValue.jstr "unit"
          | none => JValue.jstr "unit") := by
    unfold applyDefaults
    rw [getField_setField_ne _ _ _ _ (by decide) (setField_isObj _ _ _)]
    exact getField_setField_self _ _ _
  have hid : getField (applyDefaults i tc0) "id"
      = some (match getField tc0 "id" with
          | some v => if truthy v then v
              else JValue.jstr ("test_" ++ toString (i + 1))
          | none => JValue.jstr ("test_" ++ toString (i + 1))) := by
    unfold applyDefaults
    rw [getField_setField_ne _ _ _ _ (by decide) (setField_isObj _ _ _),
      getField_setField_ne _ _ _ _ (by decide) (setField_isObj _ _ _)]
    exact getField_setField_self _ _ _
  refine ⟨?_, ?_, ?_, ?_, ?_, ?_⟩
  · rw [hid]
    rcases getField tc0 "id" with _ | v
    · rfl
    · simp only [truthyOpt]
      by_cases htv : truthy v = true <;> simp [htv]
  · rw [htt]
    rcases getField tc0 "testType" with _ | v
    · rfl
    · simp only [truthyOpt]
      by_cases htv : truthy v = true <;> simp [htv]
  · rw [hpr]
    rcases getField tc0 "priority" with _ | v
    · rfl
    · simp only [truthyOpt]
      by_cases htv : truthy v = true <;> simp [htv]
  · rw [hid]
    rcases getField tc0 "id" with _ | v
    · simp [truthyOpt, truthy_test_str]
    · simp only [truthyOpt]
      by_cases htv : truthy v = true
      · simp [htv]
      · simp [htv, truthy_test_str]
  · rw [htt]
    rcases getField tc0 "testType" with _ | v
    · decide
    · simp only [truthyOpt]
      by_cases htv : truthy v = true
      · simp [htv]
      · simp [htv]
        decide
  · rw [hpr]
    rcases getField tc0 "priority" with _ | v
    · decide
    · simp only [truthyOpt]
      by_cases htv : truthy v = true
      · simp [htv]
      · simp [htv]
        decide

theorem generateTests_eq_ok {jsonParse : String → Option JValue}
    {text : String} {jsonChars : List Char} {parsed : JValue} {tcs : List JValue}
    (hext : Backend.extractJson text.data = some jsonChars)
    (hparse : jsonParse (String.mk jsonChars) = some parsed)
    (hg : getField parsed "testCases" = some (JValue.jarr tcs)) :
    Backend.generateTests jsonParse text
      = Except.ok (setField parsed "testCases"
          (JValue.jarr (mapIdxFrom applyDefaults 0 tcs))) := by
  simp only [Backend.generateTests, hext, hparse, hg]

theorem generateTests_eq_error_no_json {jsonParse : String → Option JValue}
    {text : String} (hext : Backend.extractJson text.data = none) :
    Backend.generateTests jsonParse text
      = Except.error "No valid JSON found in Gemini response" := by
  simp only [Backend.generateTests, hext]

theorem generateTests_eq_error_parse {jsonParse : String → Option JValue}
    {text : String} {jsonChars : List Char}
    (hext : Backend.extractJson text.data = some jsonChars)
    (hparse : jsonParse (String.mk jsonChars) = none) :
    Backend.generateTests jsonParse text
      = Except.error "Failed to parse JSON from Gemini response" := by
  simp only [Backend.generateTests, hext, hparse]

theorem generateTests_eq_error_not_arr {jsonParse : String → Option JValue}
    {text : String} {jsonChars : List Char} {parsed : JValue}
    (hext : Backend.extractJson text.data = some jsonChars)
    (hparse : jsonParse (String.mk jsonChars) = some parsed)
    (hnot : ∀ tcs, getField parsed "testCases" ≠ some (JValue.jarr tcs)) :
    Backend.generateTests jsonParse text
      = Except.error "Invalid test cases structure in Gemini response" := by
  rcases hg : getField parsed "testCases" with _ | v
  · simp only [Backend.generateTests, hext, hparse, hg]
  · cases v
    case jarr tcs => exact absurd hg (hnot tcs)
    all_goals simp only [Backend.generateTests, hext, hparse, hg]

/-- C8 (amended).  `generateTests` throws exactly when the extraction finds
no JSON object, `JSON.parse` fails, or the parsed object lacks a `testCases`
array; on success the returned object is the parsed response with its
`testCases` replaced by the defaulting map, under which every test case
carries truthy `id`, `testType` and `priority` fields — a missing or falsy
`id` defaulting to `test_<index+1>`, `testType` to `unit` and `priority` to
`medium` — while the remaining fields (`name`, `input`, `expected`, `code`)
are passed through unchanged and may be absent. -/
theorem generateTests_spec (jsonParse : String → Option JValue)
    (generatedText : String) :
    ((Backend.generateTests jsonParse generatedText).isOk = false ↔
      Backend.extractJson generatedText.data = none ∨
      (∃ jsonChars, Backend.extractJson generatedText.data = some jsonChars ∧
        (jsonParse (String.mk jsonChars) = none ∨
          ∃ parsed, jsonParse (String.mk jsonChars) = some parsed ∧
            ∀ tcs, getField parsed "testCases" ≠ some (JValue.jarr tcs)))) ∧
    (∀ result, Backend.generateTests jsonParse generatedText = Except.ok result →
      ∃ jsonChars parsed tcs,
        Backend.extractJson generatedText.data = some jsonChars ∧
        jsonParse (String.mk jsonChars) = some parsed ∧
        getField parsed "testCases" = some (JValue.jarr tcs) ∧
        result = setField parsed "testCases"
          (JValue.jarr (mapIdxFrom applyDefaults 0 tcs)) ∧
        (∀ j, (mapIdxFrom applyDefaults 0 tcs)[j]?
            = (tcs[j]?).map (applyDefaults j)) ∧
        ∀ j tc0, tcs[j]? = some tc0 →
          getField (applyDefaults j tc0) "id"
            = (if truthyOpt (getField tc0 "id") then getField tc0 "id"
               else some (JValue.jstr ("test_" ++ toString (j + 1)))) ∧
          getField (applyDefaults j tc0) "testType"
            = (if truthyOpt (getField tc0 "testType") then getField tc0 "testType"
               else some (JValue.jstr "unit")) ∧
          getField (applyDefaults j tc0) "priority"
            = (if truthyOpt (getField tc0 "priority") then getField tc0 "priority"
               else some (JValue.jstr "medium")) ∧
          truthyOpt (getField (applyDefaults j tc0) "id") = true ∧
          truthyOpt (getField (applyDefaults j tc0) "testType") = true ∧
          truthyOpt (getField (applyDefaults j tc0) "priority") = true) := by
  constructor
  · constructor
    · intro hfalse
      rcases hext : Backend.extractJson generatedText.data with _ | jc
      · exact Or.inl rfl
      · rcases hparse : jsonParse (String.mk jc) with _ | parsed
        · exact Or.inr ⟨jc, rfl, Or.inl hparse⟩
        · refine Or.inr ⟨jc, rfl, Or.inr ⟨parsed, hparse, ?_⟩⟩
          intro tcs hcon
          rw [generateTests_eq_ok hext hparse hcon] at hfalse
          exact Bool.noConfusion hfalse
    · intro hor
      rcases hor with hnone | ⟨jc, hjc, hrest⟩
      · rw [generateTests_eq_error_no_json hnone]
        rfl
      · rcases hrest with hpnone | ⟨parsed, hp, hall⟩
        · rw [generateTests_eq_error_parse hjc hpnone]
          rfl
        · rw [generateTests_eq_error_not_arr hjc hp hall]
          rfl
  · intro result hok
    rcases hext : Backend.extractJson generatedText.data with _ | jc
    · rw [generateTests_eq_error_no_json hext] at hok
      exact Except.noConfusion hok
    · rcases hparse : jsonParse (String.mk jc) with _ | parsed
      · rw [generateTests_eq_error_parse hext hparse] at hok
        exact Except.noConfusion hok
      · rcases hg : getField parsed "testCases" with _ | v
        · rw [generateTests_eq_error_not_arr hext hparse
            (fun tcs hcon => by rw [hg] at hcon; exact Option.noConfusion hcon)] at hok
          exact Except.noConfusion hok
        · cases v with
          | jarr tcs =>
              rw [generateTests_eq_ok hext hparse hg] at hok
              injection hok with hok
              refine ⟨jc, parsed, tcs, rfl, hparse, hg, hok.symm, ?_, ?_⟩
              · intro j
                rw [mapIdxFrom_getElem? applyDefaults 0 tcs j, Nat.zero_add]
              · intro j tc0 _
                exact applyDefaults_props j tc0
          | jnull =>
              rw [generateTests_eq_error_not_arr hext hparse
                (fun tcs hcon => by
                  rw [hg] at hcon
                  injection hcon with h
                  exact JValue.noConfusion h)] at hok
              exact Except.noConfusion hok
          | jbool b =>
              rw [generateTests_eq_error_not_arr hext hparse
                (fun tcs hcon => by
                  rw [hg] at hcon
                  injection hcon with h
                  exact JValue.noConfusion h)] at hok
              exact Except.noConfusion hok
          | jnum n =>
              rw [generateTests_eq_error_not_arr hext hparse
                (fun tcs hcon => by
                  rw [hg] at hcon
                  injection hcon with h
                  exact JValue.noConfusion h)] at hok
              exact Except.noConfusion hok
          | jstr s =>
              rw [generateTests_eq_error_not_arr hext hparse
                (fun tcs hcon => by
                  rw [hg] at hcon
                  injection hcon with h
                  exact JValue.noConfusion h)] at hok
              exact Except.noConfusion hok
          | jobj fs =>
              rw [generateTests_eq_error_not_arr hext hparse
                (fun tcs hcon => by
                  rw [hg] at hcon
                  injection hcon with h
                  exact JValue.noConfusion h)] at hok
              exact Except.noConfusion hok

/-- Gemini text for the C8 counterexample: `{"testCases":[{}]}`. -/
def c8Text : String := "\x7b\"testCases\":[\x7b\x7d]\x7d"

/-- Parse oracle for the C8 counterexample, mapping `c8Text` to its JSON
value: one test-case object with no fields at all. -/
def c8Parse : String → Option JValue := fun s =>
  if s == c8Text then
    some (JValue.jobj [("testCases", JValue.jarr [JValue.jobj []])])
  else none

set_option maxRecDepth 16384 in
/-- C8 (counterexample to the claim as stated).  On the response
`{"testCases":[{}]}` `generateTests` succeeds, and the returned test case
carries only the defaulted `id`, `testType` and `priority`: it has no
`name` field (nor `input`, `expected` or `code`), so not every test case in
the returned response has all seven record fields. -/
theorem generateTests_claim_counterexample :
    Backend.generateTests c8Parse c8Text
      = Except.ok (JValue.jobj [("testCases", JValue.jarr
          [JValue.jobj [("id", JValue.jstr "test_1"),
            ("testType", JValue.jstr "unit"),
            ("priority", JValue.jstr "medium")]])]) ∧
    getField (JValue.jobj [("id", JValue.jstr "test_1"),
      ("testType", JValue.jstr "unit"), ("priority", JValue.jstr "medium")])
      "name" = none := by
  exact ⟨rfl, rfl⟩

/-- Gemini text for the C8 witness: `{"testCases":[{"id":"a"}]}`. -/
def c8wText : String := "\x7b\"testCases\":[\x7b\"id\":\"a\"\x7d]\x7d"

/-- Parsed value of `c8wText`. -/
def c8wParsed : JValue :=
  JValue.jobj [("testCases", JValue.jarr [JValue.jobj [("id", JValue.jstr "a")]])]

/-- Parse oracle for the C8 witness. -/
def c8wParse : String → Option JValue := fun s =>
  if s == c8wText then some c8wParsed else none

set_option maxRecDepth 16384 in
/-- Witness for `generateTests_spec`: on `{"testCases":[{"id":"a"}]}` the
call succeeds, the truthy `id` is kept, and `testType` is defaulted. -/
theorem generateTests_spec_witness :
    Backend.generateTests c8wParse c8wText
      = Except.ok (setField c8wParsed "testCases"
          (JValue.jarr (mapIdxFrom applyDefaults 0
            [JValue.jobj [("id", JValue.jstr "a")]]))) ∧
    truthyOpt (getField (applyDefaults 0
      (JValue.jobj [("id", JValue.jstr "a")])) "testType") = true ∧
    getField (applyDefaults 0 (JValue.jobj [("id", JValue.jstr "a")])) "id"
      = some (JValue.jstr "a") := by
  obtain ⟨jsonChars, parsed, tcs, hjc, hp, hg, hres, hmap, hprops⟩ :=
    (generateTests_spec c8wParse c8wText).2
      (setField c8wParsed "testCases"
        (JValue.jarr (mapIdxFrom applyDefaults 0
          [JValue.jobj [("id", JValue.jstr "a")]])))
      rfl
  rw [show Backend.extractJson c8wText.data = some c8wText.data from rfl] at hjc
  injection hjc with hjc
  subst hjc
  rw [show c8wParse (String.mk c8wText.data) = some c8wParsed from rfl] at hp
  injection hp with hp
  subst hp
  rw [show getField c8wParsed "testCases"
      = some (JValue.jarr [JValue.jobj [("id", JValue.jstr "a")]]) from rfl] at hg
  injection hg with hg
  injection hg with hg
  subst hg
  refine ⟨rfl, ?_, ?_⟩
  · exact (hprops 0 (JValue.jobj [("id", JValue.jstr "a")]) rfl).2.2.2.2.1
  · have h := (hprops 0 (JValue.jobj [("id", JValue.jstr "a")]) rfl).1
    rw [h]
    rfl
